import Mathlib

/-!
Verification of the LocalUnifiDriveLink content script
(`content/content.js`) and options page against its specification.

The document is modelled as a rose tree of element nodes.  Every node
carries a numeric identity `nid` (DOM nodes have object identity; the
model makes it explicit), its tag name, its `id` attribute (`attrId`),
its `data-testid` attribute, its class list and its children.  Text
nodes, styles and event listeners are not part of the tree; the click
listener of the injected icon is modelled separately (`iconClick`).

Standing model assumptions, packaged in `WfDoc`/`WfSt` below:
the root of the tree is the document body (tag `body`, so it never
matches the anchor or container selectors) and does not itself carry
the reserved icon id; node identities are pairwise distinct and below
the `nextNid` allocation counter.
-/

inductive Dom where
  | node (nid : Nat) (tag : String) (attrId : String) (testid : String)
         (classes : List String) (children : List Dom)

def Dom.nid : Dom → Nat
  | .node n _ _ _ _ _ => n

def Dom.tag : Dom → String
  | .node _ t _ _ _ _ => t

def Dom.attrId : Dom → String
  | .node _ _ i _ _ _ => i

def Dom.testid : Dom → String
  | .node _ _ _ ti _ _ => ti

def Dom.classes : Dom → List String
  | .node _ _ _ _ cl _ => cl

def Dom.children : Dom → List Dom
  | .node _ _ _ _ _ ch => ch

/- All node identities of the tree, in pre-order. -/
mutual
def Dom.nids : Dom → List Nat
  | .node n _ _ _ _ ch => n :: Dom.nidsL ch
def Dom.nidsL : List Dom → List Nat
  | [] => []
  | c :: cs => Dom.nids c ++ Dom.nidsL cs
end

/- Number of nodes of the tree satisfying a selector predicate. -/
mutual
def Dom.countP (p : Dom → Bool) : Dom → Nat
  | .node n t i ti cl ch =>
      (if p (.node n t i ti cl ch) then 1 else 0) + Dom.countPL p ch
def Dom.countPL (p : Dom → Bool) : List Dom → Nat
  | [] => 0
  | c :: cs => Dom.countP p c + Dom.countPL p cs
end

/- First node (in pre-order, the element itself included) satisfying a
selector predicate: the model of `document.querySelector` /
`document.getElementById`. -/
mutual
def Dom.findFirst (p : Dom → Bool) : Dom → Option Dom
  | .node n t i ti cl ch =>
      if p (.node n t i ti cl ch) then some (.node n t i ti cl ch)
      else Dom.findFirstL p ch
def Dom.findFirstL (p : Dom → Bool) : List Dom → Option Dom
  | [] => none
  | c :: cs =>
      match Dom.findFirst p c with
      | some x => some x
      | none => Dom.findFirstL p cs
end

/-- `el.querySelector(...)`: first strict descendant satisfying the
predicate (the element itself is excluded). -/
def Dom.findStrict (p : Dom → Bool) (d : Dom) : Option Dom :=
  Dom.findFirstL p d.children

/- `parent.removeChild`: remove every child subtree whose root has the
given identity (under `WfDoc` there is at most one).  The root of the
whole tree is never removed. -/
mutual
def Dom.removeNid (k : Nat) : Dom → Dom
  | .node n t i ti cl ch => .node n t i ti cl (Dom.removeNidL k ch)
def Dom.removeNidL (k : Nat) : List Dom → List Dom
  | [] => []
  | c :: cs =>
      if c.nid == k then Dom.removeNidL k cs
      else Dom.removeNid k c :: Dom.removeNidL k cs
end

/- The subtrees that `removeNid` removes (outermost occurrences of the
identity), in document order.  Bookkeeping device for the proofs. -/
mutual
def Dom.removedSubs (k : Nat) : Dom → List Dom
  | .node _ _ _ _ _ ch => Dom.removedSubsL k ch
def Dom.removedSubsL (k : Nat) : List Dom → List Dom
  | [] => []
  | c :: cs =>
      if c.nid == k then c :: Dom.removedSubsL k cs
      else Dom.removedSubs k c ++ Dom.removedSubsL k cs
end

/- `parent.insertBefore(w, anchor.nextSibling)`: insert `w` directly
after the child with identity `k`, at every occurrence (under `WfDoc`
there is at most one). -/
mutual
def Dom.insertAfterNid (k : Nat) (w : Dom) : Dom → Dom
  | .node n t i ti cl ch => .node n t i ti cl (Dom.insertAfterNidL k w ch)
def Dom.insertAfterNidL (k : Nat) (w : Dom) : List Dom → List Dom
  | [] => []
  | c :: cs =>
      if c.nid == k then
        Dom.insertAfterNid k w c :: w :: Dom.insertAfterNidL k w cs
      else
        Dom.insertAfterNid k w c :: Dom.insertAfterNidL k w cs
end

/- `parent.appendChild(w)`: append `w` as last child of the node with
identity `k`, at every occurrence (under `WfDoc` at most one). -/
mutual
def Dom.appendChildNid (k : Nat) (w : Dom) : Dom → Dom
  | .node n t i ti cl ch =>
      if n == k then .node n t i ti cl (Dom.appendChildNidL k w ch ++ [w])
      else .node n t i ti cl (Dom.appendChildNidL k w ch)
def Dom.appendChildNidL (k : Nat) (w : Dom) : List Dom → List Dom
  | [] => []
  | c :: cs => Dom.appendChildNid k w c :: Dom.appendChildNidL k w cs
end

/-- `el.classList.add(c)` for each class of `extra`, skipping empty
strings and avoiding duplicates (DOMTokenList semantics). -/
def classAdd (base : List String) (extra : List String) : List String :=
  extra.foldl (fun acc c => if c = "" || acc.contains c then acc else acc ++ [c]) base

/- Add classes to the node with identity `k` (in-tree class copy). -/
mutual
def Dom.addClassesNid (k : Nat) (extra : List String) : Dom → Dom
  | .node n t i ti cl ch =>
      .node n t i ti (if n == k then classAdd cl extra else cl)
        (Dom.addClassesNidL k extra ch)
def Dom.addClassesNidL (k : Nat) (extra : List String) : List Dom → List Dom
  | [] => []
  | c :: cs => Dom.addClassesNid k extra c :: Dom.addClassesNidL k extra cs
end

/- `anchor.nextElementSibling`: the node directly after the child with
identity `k` (first occurrence in pre-order). -/
mutual
def Dom.sibAfter (k : Nat) : Dom → Option Dom
  | .node _ _ _ _ _ ch => Dom.sibAfterL k ch
def Dom.sibAfterL (k : Nat) : List Dom → Option Dom
  | [] => none
  | [c] => if c.nid == k then none else Dom.sibAfter k c
  | c :: c2 :: cs =>
      if c.nid == k then some c2
      else
        match Dom.sibAfter k c with
        | some x => some x
        | none => Dom.sibAfterL k (c2 :: cs)
end

/-- A node value occurring somewhere in the tree (node identity of the
DOM made explicit: `SubNode x d` places the value `x` at a position of `d`). -/
inductive SubNode : Dom → Dom → Prop where
  | refl (d : Dom) : SubNode d d
  | step {x c : Dom} {n : Nat} {t i ti : String} {cl : List String}
      {ch : List Dom} (hc : c ∈ ch) (hx : SubNode x c) :
      SubNode x (.node n t i ti cl ch)

/-! ### Basic unfolding lemmas -/

@[simp] theorem Dom.nids_node (n : Nat) (t i ti : String) (cl : List String)
    (ch : List Dom) : (Dom.node n t i ti cl ch).nids = n :: Dom.nidsL ch := by
  simp [Dom.nids]

@[simp] theorem Dom.nidsL_nil : Dom.nidsL [] = [] := by simp [Dom.nidsL]

@[simp] theorem Dom.nidsL_cons (c : Dom) (cs : List Dom) :
    Dom.nidsL (c :: cs) = c.nids ++ Dom.nidsL cs := by simp [Dom.nidsL]

@[simp] theorem Dom.countPL_nil (p : Dom → Bool) : Dom.countPL p [] = 0 := by
  simp [Dom.countPL]

@[simp] theorem Dom.countPL_cons (p : Dom → Bool) (c : Dom) (cs : List Dom) :
    Dom.countPL p (c :: cs) = Dom.countP p c + Dom.countPL p cs := by
  simp [Dom.countPL]

theorem Dom.countP_node (p : Dom → Bool) (n : Nat) (t i ti : String)
    (cl : List String) (ch : List Dom) :
    Dom.countP p (.node n t i ti cl ch) =
      (if p (.node n t i ti cl ch) then 1 else 0) + Dom.countPL p ch := by
  simp [Dom.countP]

@[simp] theorem Dom.findFirstL_nil (p : Dom → Bool) : Dom.findFirstL p [] = none := by
  simp [Dom.findFirstL]

theorem Dom.findFirstL_cons (p : Dom → Bool) (c : Dom) (cs : List Dom) :
    Dom.findFirstL p (c :: cs) =
      (match Dom.findFirst p c with
       | some x => some x
       | none => Dom.findFirstL p cs) := by
  simp [Dom.findFirstL]

theorem Dom.findFirst_node (p : Dom → Bool) (n : Nat) (t i ti : String)
    (cl : List String) (ch : List Dom) :
    Dom.findFirst p (.node n t i ti cl ch) =
      (if p (.node n t i ti cl ch) then some (.node n t i ti cl ch)
       else Dom.findFirstL p ch) := by
  simp [Dom.findFirst]

/-! ### findFirst: found nodes satisfy the predicate and occur in the tree -/

mutual
theorem Dom.findFirst_pred {p : Dom → Bool} {x : Dom} :
    ∀ {d : Dom}, Dom.findFirst p d = some x → p x = true
  | .node n t i ti cl ch => by
      rw [Dom.findFirst_node]
      split
      · intro h; cases h; assumption
      · exact Dom.findFirstL_pred
theorem Dom.findFirstL_pred {p : Dom → Bool} {x : Dom} :
    ∀ {l : List Dom}, Dom.findFirstL p l = some x → p x = true
  | [] => by simp
  | c :: cs => by
      rw [Dom.findFirstL_cons]
      cases hc : Dom.findFirst p c with
      | some y => intro h; cases h; exact Dom.findFirst_pred hc
      | none => exact Dom.findFirstL_pred
end

mutual
theorem Dom.findFirst_sub {p : Dom → Bool} {x : Dom} :
    ∀ {d : Dom}, Dom.findFirst p d = some x → SubNode x d
  | .node n t i ti cl ch => by
      rw [Dom.findFirst_node]
      split
      · intro h; cases h; exact SubNode.refl _
      · intro h
        obtain ⟨c, hc, hsub⟩ := Dom.findFirstL_sub h
        exact SubNode.step hc hsub
theorem Dom.findFirstL_sub {p : Dom → Bool} {x : Dom} :
    ∀ {l : List Dom}, Dom.findFirstL p l = some x → ∃ c ∈ l, SubNode x c
  | [] => by simp
  | c :: cs => by
      rw [Dom.findFirstL_cons]
      cases hc : Dom.findFirst p c with
      | some y =>
          intro h; cases h
          exact ⟨c, List.mem_cons_self c cs, Dom.findFirst_sub hc⟩
      | none =>
          intro h
          obtain ⟨c2, hc2, hsub⟩ := Dom.findFirstL_sub h
          exact ⟨c2, List.mem_cons_of_mem c hc2, hsub⟩
end

mutual
theorem Dom.findFirst_none_countP {p : Dom → Bool} :
    ∀ {d : Dom}, Dom.findFirst p d = none → Dom.countP p d = 0
  | .node n t i ti cl ch => by
      rw [Dom.findFirst_node, Dom.countP_node]
      split
      · intro h; cases h
      · intro h
        simpa using Dom.findFirstL_none_countP h
theorem Dom.findFirstL_none_countP {p : Dom → Bool} :
    ∀ {l : List Dom}, Dom.findFirstL p l = none → Dom.countPL p l = 0
  | [] => by simp
  | c :: cs => by
      rw [Dom.findFirstL_cons]
      cases hc : Dom.findFirst p c with
      | some y => intro h; cases h
      | none =>
          intro h
          simp [Dom.findFirst_none_countP hc, Dom.findFirstL_none_countP h]
end

mutual
theorem Dom.findFirst_isSome_of_countP {p : Dom → Bool} :
    ∀ {d : Dom}, 0 < Dom.countP p d → (Dom.findFirst p d).isSome
  | .node n t i ti cl ch => by
      rw [Dom.findFirst_node, Dom.countP_node]
      split
      · simp
      · intro h
        simp_all only [if_neg, Nat.zero_add]
        exact Dom.findFirstL_isSome_of_countP h
theorem Dom.findFirstL_isSome_of_countP {p : Dom → Bool} :
    ∀ {l : List Dom}, 0 < Dom.countPL p l → (Dom.findFirstL p l).isSome
  | [] => by simp
  | c :: cs => by
      intro h
      rw [Dom.findFirstL_cons]
      cases hc : Dom.findFirst p c with
      | some y => simp
      | none =>
          have := Dom.findFirst_none_countP hc
          apply Dom.findFirstL_isSome_of_countP
          simp only [Dom.countPL_cons, this, Nat.zero_add] at h
          exact h
end

/-! ### SubNode: occurrence facts -/

theorem Dom.nid_mem_self (d : Dom) : d.nid ∈ d.nids := by
  cases d with
  | node n t i ti cl ch => simp [Dom.nid]

theorem SubNode.nids_subset_of_mem {x c : Dom} {l : List Dom}
    (hmem : c ∈ l) (hsub : x.nids ⊆ c.nids) : x.nids ⊆ Dom.nidsL l := by
  induction l with
  | nil => cases hmem
  | cons c2 cs ih =>
      rcases List.mem_cons.mp hmem with h | h
      · subst h
        intro m hm
        simp only [Dom.nidsL_cons, List.mem_append]
        exact Or.inl (hsub hm)
      · intro m hm
        simp only [Dom.nidsL_cons, List.mem_append]
        exact Or.inr (ih h hm)

theorem SubNode.nids_subset {x d : Dom} (h : SubNode x d) : x.nids ⊆ d.nids := by
  induction h with
  | refl => exact fun m hm => hm
  | step hc _ ih =>
      intro m hm
      simp only [Dom.nids_node, List.mem_cons]
      exact Or.inr (SubNode.nids_subset_of_mem hc ih hm)

theorem SubNode.nid_mem {x d : Dom} (h : SubNode x d) : x.nid ∈ d.nids := by
  apply h.nids_subset
  cases x with
  | node n t i ti cl ch => simp [Dom.nid]

theorem SubNode.trans {x y d : Dom} (hxy : SubNode x y) (hyd : SubNode y d) :
    SubNode x d := by
  induction hyd with
  | refl => exact hxy
  | step hc _ ih => exact SubNode.step hc ih

theorem SubNode.eq_or_nids_subset_children {x d : Dom} (h : SubNode x d) :
    x = d ∨ x.nids ⊆ Dom.nidsL d.children := by
  cases h with
  | refl => exact Or.inl rfl
  | step hc hx =>
      right
      exact SubNode.nids_subset_of_mem hc hx.nids_subset

theorem Dom.nodup_of_mem {c : Dom} {l : List Dom}
    (hmem : c ∈ l) (hnd : (Dom.nidsL l).Nodup) : c.nids.Nodup := by
  induction l with
  | nil => cases hmem
  | cons c2 cs ih =>
      simp only [Dom.nidsL_cons, List.nodup_append] at hnd
      rcases List.mem_cons.mp hmem with h | h
      · subst h; exact hnd.1
      · exact ih h hnd.2.1

theorem SubNode.nodup {x d : Dom} (h : SubNode x d) (hnd : d.nids.Nodup) :
    x.nids.Nodup := by
  induction h with
  | refl => exact hnd
  | step hc _ ih =>
      apply ih
      apply Dom.nodup_of_mem hc
      simp only [Dom.nids_node, List.nodup_cons] at hnd
      exact hnd.2

theorem SubNode.eq_of_nid_eq {x d : Dom} (hnd : d.nids.Nodup)
    (h : SubNode x d) (heq : x.nid = d.nid) : x = d := by
  cases h with
  | refl => rfl
  | step hc hx =>
      exfalso
      simp only [Dom.nids_node, List.nodup_cons] at hnd
      simp only [Dom.nid] at heq
      apply hnd.1
      rw [← heq]
      exact SubNode.nids_subset_of_mem hc hx.nids_subset (Dom.nid_mem_self x)

theorem SubNode.nid_mem_children {x d : Dom} (hnd : d.nids.Nodup)
    (h : SubNode x d) (hne : x.nid ≠ d.nid) : x.nid ∈ Dom.nidsL d.children := by
  rcases h.eq_or_nids_subset_children with h1 | h1
  · subst h1; exact absurd rfl hne
  · apply h1
    cases x with
    | node n t i ti cl ch => simp [Dom.nid]

/-! ### Removal lemmas -/

theorem Dom.removeNid_node (k n : Nat) (t i ti : String) (cl : List String)
    (ch : List Dom) :
    Dom.removeNid k (.node n t i ti cl ch) = .node n t i ti cl (Dom.removeNidL k ch) := by
  simp [Dom.removeNid]

@[simp] theorem Dom.removeNidL_nil (k : Nat) : Dom.removeNidL k [] = [] := by
  simp [Dom.removeNidL]

theorem Dom.removeNidL_cons (k : Nat) (c : Dom) (cs : List Dom) :
    Dom.removeNidL k (c :: cs) =
      (if c.nid == k then Dom.removeNidL k cs
       else Dom.removeNid k c :: Dom.removeNidL k cs) := by
  simp [Dom.removeNidL]

theorem Dom.removedSubs_node (k n : Nat) (t i ti : String) (cl : List String)
    (ch : List Dom) :
    Dom.removedSubs k (.node n t i ti cl ch) = Dom.removedSubsL k ch := by
  simp [Dom.removedSubs]

@[simp] theorem Dom.removedSubsL_nil (k : Nat) : Dom.removedSubsL k [] = [] := by
  simp [Dom.removedSubsL]

theorem Dom.removedSubsL_cons (k : Nat) (c : Dom) (cs : List Dom) :
    Dom.removedSubsL k (c :: cs) =
      (if c.nid == k then c :: Dom.removedSubsL k cs
       else Dom.removedSubs k c ++ Dom.removedSubsL k cs) := by
  simp [Dom.removedSubsL]

/-- A selector predicate that does not look at the children of a node
(all selectors used by the script are of this kind). -/
def ChildBlind (p : Dom → Bool) : Prop :=
  ∀ n t i ti cl ch ch2, p (.node n t i ti cl ch) = p (.node n t i ti cl ch2)

/-- A selector predicate that looks neither at classes nor at children
(id, tag and testid selectors). -/
def StyleBlind (p : Dom → Bool) : Prop :=
  ∀ n t i ti cl cl2 ch ch2, p (.node n t i ti cl ch) = p (.node n t i ti cl2 ch2)

theorem StyleBlind.childBlind {p : Dom → Bool} (h : StyleBlind p) : ChildBlind p :=
  fun n t i ti cl ch ch2 => h n t i ti cl cl ch ch2

/- countP is conserved by removal: what is gone is exactly the removed
subtrees. -/
mutual
theorem Dom.countP_remove {p : Dom → Bool} (hp : ChildBlind p) (k : Nat) :
    ∀ d : Dom, Dom.countP p (Dom.removeNid k d)
        + ((Dom.removedSubs k d).map (Dom.countP p)).sum = Dom.countP p d
  | .node n t i ti cl ch => by
      rw [Dom.removeNid_node, Dom.removedSubs_node, Dom.countP_node, Dom.countP_node,
        hp n t i ti cl (Dom.removeNidL k ch) ch]
      have := Dom.countPL_remove hp k ch
      omega
theorem Dom.countPL_remove {p : Dom → Bool} (hp : ChildBlind p) (k : Nat) :
    ∀ l : List Dom, Dom.countPL p (Dom.removeNidL k l)
        + ((Dom.removedSubsL k l).map (Dom.countP p)).sum = Dom.countPL p l
  | [] => by simp
  | c :: cs => by
      rw [Dom.removeNidL_cons, Dom.removedSubsL_cons]
      by_cases hk : c.nid == k
      · rw [if_pos hk, if_pos hk]
        have := Dom.countPL_remove hp k cs
        simp only [List.map_cons, List.sum_cons, Dom.countPL_cons]
        omega
      · rw [if_neg hk, if_neg hk]
        have h1 := Dom.countP_remove hp k c
        have h2 := Dom.countPL_remove hp k cs
        simp only [List.map_append, List.sum_append, Dom.countPL_cons]
        omega
end

/- Node identities are conserved by removal in the same way. -/
mutual
theorem Dom.count_nids_remove (m k : Nat) :
    ∀ d : Dom, (Dom.removeNid k d).nids.count m
        + ((Dom.removedSubs k d).map (fun s => s.nids.count m)).sum = d.nids.count m
  | .node n t i ti cl ch => by
      rw [Dom.removeNid_node, Dom.removedSubs_node]
      simp only [Dom.nids_node, List.count_cons]
      have := Dom.count_nidsL_remove m k ch
      omega
theorem Dom.count_nidsL_remove (m k : Nat) :
    ∀ l : List Dom, (Dom.nidsL (Dom.removeNidL k l)).count m
        + ((Dom.removedSubsL k l).map (fun s => s.nids.count m)).sum
        = (Dom.nidsL l).count m
  | [] => by simp
  | c :: cs => by
      rw [Dom.removeNidL_cons, Dom.removedSubsL_cons]
      by_cases hk : c.nid == k
      · rw [if_pos hk, if_pos hk]
        have := Dom.count_nidsL_remove m k cs
        simp only [List.map_cons, List.sum_cons, Dom.nidsL_cons, List.count_append]
        omega
      · rw [if_neg hk, if_neg hk]
        have h1 := Dom.count_nids_remove m k c
        have h2 := Dom.count_nidsL_remove m k cs
        simp only [List.map_append, List.sum_append, Dom.nidsL_cons, List.count_append]
        omega
end

/- Removal only erases identities: the remaining list of identities is a
sublist of the original one (so distinctness and bounds are preserved). -/
mutual
theorem Dom.nids_remove_sublist (k : Nat) :
    ∀ d : Dom, List.Sublist (Dom.removeNid k d).nids d.nids
  | .node n t i ti cl ch => by
      rw [Dom.removeNid_node]
      simp only [Dom.nids_node]
      exact (Dom.nidsL_remove_sublist k ch).cons₂ n
theorem Dom.nidsL_remove_sublist (k : Nat) :
    ∀ l : List Dom, List.Sublist (Dom.nidsL (Dom.removeNidL k l)) (Dom.nidsL l)
  | [] => by simp
  | c :: cs => by
      rw [Dom.removeNidL_cons]
      by_cases hk : c.nid == k
      · rw [if_pos hk]
        simp only [Dom.nidsL_cons]
        exact (Dom.nidsL_remove_sublist k cs).trans (List.sublist_append_right _ _)
      · rw [if_neg hk]
        simp only [Dom.nidsL_cons]
        exact (Dom.nids_remove_sublist k c).append (Dom.nidsL_remove_sublist k cs)
end

/- Removing an absent identity does nothing. -/
mutual
theorem Dom.removeNid_of_not_mem {k : Nat} :
    ∀ {d : Dom}, k ∉ d.nids → Dom.removeNid k d = d
  | .node n t i ti cl ch => by
      intro h
      rw [Dom.removeNid_node]
      simp only [Dom.nids_node, List.mem_cons, not_or] at h
      rw [Dom.removeNidL_of_not_mem h.2]
theorem Dom.removeNidL_of_not_mem {k : Nat} :
    ∀ {l : List Dom}, k ∉ Dom.nidsL l → Dom.removeNidL k l = l
  | [] => by intro h; simp
  | c :: cs => by
      intro h
      simp only [Dom.nidsL_cons, List.mem_append, not_or] at h
      rw [Dom.removeNidL_cons, if_neg, Dom.removeNid_of_not_mem h.1,
        Dom.removeNidL_of_not_mem h.2]
      simp only [beq_iff_eq]
      intro hc
      exact h.1 (hc ▸ Dom.nid_mem_self c)
end

mutual
theorem Dom.removedSubsL_of_not_mem {k : Nat} :
    ∀ {l : List Dom}, k ∉ Dom.nidsL l → Dom.removedSubsL k l = []
  | [] => by intro h; simp
  | c :: cs => by
      intro h
      simp only [Dom.nidsL_cons, List.mem_append, not_or] at h
      rw [Dom.removedSubsL_cons, if_neg, Dom.removedSubs_of_not_mem h.1,
        Dom.removedSubsL_of_not_mem h.2]
      · simp
      · simp only [beq_iff_eq]
        intro hc
        exact h.1 (hc ▸ Dom.nid_mem_self c)
theorem Dom.removedSubs_of_not_mem {k : Nat} :
    ∀ {d : Dom}, k ∉ d.nids → Dom.removedSubs k d = []
  | .node n t i ti cl ch => by
      intro h
      simp only [Dom.nids_node, List.mem_cons, not_or] at h
      rw [Dom.removedSubs_node, Dom.removedSubsL_of_not_mem h.2]
end

/- Under distinct identities, removing the identity of an occurring node
removes exactly that node. -/
mutual
theorem Dom.removedSubs_single {x : Dom} :
    ∀ {d : Dom}, d.nids.Nodup → SubNode x d → x.nid ≠ d.nid →
      Dom.removedSubs x.nid d = [x]
  | .node n t i ti cl ch => by
      intro hnd hsub hne
      rw [Dom.removedSubs_node]
      cases hsub with
      | refl => exact absurd rfl hne
      | step hc hx =>
          simp only [Dom.nids_node, List.nodup_cons] at hnd
          exact Dom.removedSubsL_single hnd.2 (by assumption) hx
theorem Dom.removedSubsL_single {x c0 : Dom} :
    ∀ {l : List Dom}, (Dom.nidsL l).Nodup → c0 ∈ l → SubNode x c0 →
      Dom.removedSubsL x.nid l = [x]
  | [] => by intro _ h; cases h
  | c :: cs => by
      intro hnd hmem hx
      simp only [Dom.nidsL_cons, List.nodup_append] at hnd
      rw [Dom.removedSubsL_cons]
      rcases List.mem_cons.mp hmem with h | h
      · rw [h] at hx
        by_cases hk : c.nid == x.nid
        · rw [if_pos hk]
          have hxc : x = c := by
            apply SubNode.eq_of_nid_eq hnd.1 hx
            exact (beq_iff_eq.mp hk).symm
          rw [Dom.removedSubsL_of_not_mem (fun hm => hnd.2.2 hx.nid_mem hm), hxc]
        · rw [if_neg hk]
          rw [Dom.removedSubsL_of_not_mem (fun hm => hnd.2.2 hx.nid_mem hm)]
          cases hx with
          | refl => exact absurd (beq_self_eq_true x.nid) hk
          | step hc2 hx2 =>
              rw [List.append_nil]
              rename_i n2 t2 i2 ti2 cl2 ch2
              simp only [Dom.nids_node, List.nodup_cons] at hnd
              exact Dom.removedSubsL_single hnd.1.2 hc2 hx2
      · have hxin : x.nid ∈ Dom.nidsL cs :=
          SubNode.nids_subset_of_mem h hx.nids_subset (Dom.nid_mem_self x)
        have hnotc : x.nid ∉ c.nids := fun hm => hnd.2.2 hm hxin
        by_cases hk : c.nid == x.nid
        · exfalso
          exact hnotc (beq_iff_eq.mp hk ▸ Dom.nid_mem_self c)
        · rw [if_neg hk, Dom.removedSubs_of_not_mem hnotc, List.nil_append]
          exact Dom.removedSubsL_single hnd.2.1 h hx
end

/-! ### Insertion, append, class and sibling unfolding lemmas -/

theorem Dom.insertAfterNid_node (k : Nat) (w : Dom) (n : Nat) (t i ti : String)
    (cl : List String) (ch : List Dom) :
    Dom.insertAfterNid k w (.node n t i ti cl ch)
      = .node n t i ti cl (Dom.insertAfterNidL k w ch) := by
  simp [Dom.insertAfterNid]

@[simp] theorem Dom.insertAfterNidL_nil (k : Nat) (w : Dom) :
    Dom.insertAfterNidL k w [] = [] := by simp [Dom.insertAfterNidL]

theorem Dom.insertAfterNidL_cons (k : Nat) (w c : Dom) (cs : List Dom) :
    Dom.insertAfterNidL k w (c :: cs) =
      (if c.nid == k then
        Dom.insertAfterNid k w c :: w :: Dom.insertAfterNidL k w cs
       else Dom.insertAfterNid k w c :: Dom.insertAfterNidL k w cs) := by
  simp [Dom.insertAfterNidL]

theorem Dom.appendChildNid_node (k : Nat) (w : Dom) (n : Nat) (t i ti : String)
    (cl : List String) (ch : List Dom) :
    Dom.appendChildNid k w (.node n t i ti cl ch)
      = (if n == k then Dom.node n t i ti cl (Dom.appendChildNidL k w ch ++ [w])
         else .node n t i ti cl (Dom.appendChildNidL k w ch)) := by
  simp [Dom.appendChildNid]

@[simp] theorem Dom.appendChildNidL_nil (k : Nat) (w : Dom) :
    Dom.appendChildNidL k w [] = [] := by simp [Dom.appendChildNidL]

@[simp] theorem Dom.appendChildNidL_cons (k : Nat) (w c : Dom) (cs : List Dom) :
    Dom.appendChildNidL k w (c :: cs)
      = Dom.appendChildNid k w c :: Dom.appendChildNidL k w cs := by
  simp [Dom.appendChildNidL]

theorem Dom.addClassesNid_node (k : Nat) (extra : List String) (n : Nat)
    (t i ti : String) (cl : List String) (ch : List Dom) :
    Dom.addClassesNid k extra (.node n t i ti cl ch)
      = .node n t i ti (if n == k then classAdd cl extra else cl)
          (Dom.addClassesNidL k extra ch) := by
  simp [Dom.addClassesNid]

@[simp] theorem Dom.addClassesNidL_nil (k : Nat) (extra : List String) :
    Dom.addClassesNidL k extra [] = [] := by simp [Dom.addClassesNidL]

@[simp] theorem Dom.addClassesNidL_cons (k : Nat) (extra : List String) (c : Dom)
    (cs : List Dom) :
    Dom.addClassesNidL k extra (c :: cs)
      = Dom.addClassesNid k extra c :: Dom.addClassesNidL k extra cs := by
  simp [Dom.addClassesNidL]

theorem Dom.sibAfter_node (k : Nat) (n : Nat) (t i ti : String)
    (cl : List String) (ch : List Dom) :
    Dom.sibAfter k (.node n t i ti cl ch) = Dom.sibAfterL k ch := by
  simp [Dom.sibAfter]

@[simp] theorem Dom.sibAfterL_nil (k : Nat) : Dom.sibAfterL k [] = none := by
  simp [Dom.sibAfterL]

theorem Dom.sibAfterL_singleton (k : Nat) (c : Dom) :
    Dom.sibAfterL k [c] = (if c.nid == k then none else Dom.sibAfter k c) := by
  simp [Dom.sibAfterL]

theorem Dom.sibAfterL_cons2 (k : Nat) (c c2 : Dom) (cs : List Dom) :
    Dom.sibAfterL k (c :: c2 :: cs) =
      (if c.nid == k then some c2
       else match Dom.sibAfter k c with
            | some x => some x
            | none => Dom.sibAfterL k (c2 :: cs)) := by
  conv_lhs => rw [Dom.sibAfterL]

/-! ### Root fields are preserved by the tree transformers -/

theorem Dom.nid_insertAfter (k : Nat) (w d : Dom) :
    (Dom.insertAfterNid k w d).nid = d.nid := by
  cases d with
  | node n t i ti cl ch => rw [Dom.insertAfterNid_node]; rfl

theorem Dom.nid_removeNid (k : Nat) (d : Dom) :
    (Dom.removeNid k d).nid = d.nid := by
  cases d with
  | node n t i ti cl ch => rw [Dom.removeNid_node]; rfl

theorem Dom.nid_appendChild (k : Nat) (w d : Dom) :
    (Dom.appendChildNid k w d).nid = d.nid := by
  cases d with
  | node n t i ti cl ch =>
      rw [Dom.appendChildNid_node]
      split <;> rfl

theorem Dom.nid_addClasses (k : Nat) (extra : List String) (d : Dom) :
    (Dom.addClassesNid k extra d).nid = d.nid := by
  cases d with
  | node n t i ti cl ch => rw [Dom.addClassesNid_node]; rfl

/-! ### Transformers at an absent identity do nothing -/

mutual
theorem Dom.insertAfterNid_of_not_mem {k : Nat} {w : Dom} :
    ∀ {d : Dom}, k ∉ d.nids → Dom.insertAfterNid k w d = d
  | .node n t i ti cl ch => by
      intro h
      simp only [Dom.nids_node, List.mem_cons, not_or] at h
      rw [Dom.insertAfterNid_node, Dom.insertAfterNidL_of_not_mem h.2]
theorem Dom.insertAfterNidL_of_not_mem {k : Nat} {w : Dom} :
    ∀ {l : List Dom}, k ∉ Dom.nidsL l → Dom.insertAfterNidL k w l = l
  | [] => by intro h; simp
  | c :: cs => by
      intro h
      simp only [Dom.nidsL_cons, List.mem_append, not_or] at h
      rw [Dom.insertAfterNidL_cons, if_neg, Dom.insertAfterNid_of_not_mem h.1,
        Dom.insertAfterNidL_of_not_mem h.2]
      simp only [beq_iff_eq]
      intro hc
      exact h.1 (hc ▸ Dom.nid_mem_self c)
end

mutual
theorem Dom.appendChildNid_of_not_mem {k : Nat} {w : Dom} :
    ∀ {d : Dom}, k ∉ d.nids → Dom.appendChildNid k w d = d
  | .node n t i ti cl ch => by
      intro h
      simp only [Dom.nids_node, List.mem_cons, not_or] at h
      rw [Dom.appendChildNid_node, if_neg, Dom.appendChildNidL_of_not_mem h.2]
      simp only [beq_iff_eq]
      exact fun hc => h.1 hc.symm
theorem Dom.appendChildNidL_of_not_mem {k : Nat} {w : Dom} :
    ∀ {l : List Dom}, k ∉ Dom.nidsL l → Dom.appendChildNidL k w l = l
  | [] => by intro h; simp
  | c :: cs => by
      intro h
      simp only [Dom.nidsL_cons, List.mem_append, not_or] at h
      rw [Dom.appendChildNidL_cons, Dom.appendChildNid_of_not_mem h.1,
        Dom.appendChildNidL_of_not_mem h.2]
end

mutual
theorem Dom.sibAfter_none_of_not_mem {k : Nat} :
    ∀ {d : Dom}, k ∉ d.nids → Dom.sibAfter k d = none
  | .node n t i ti cl ch => by
      intro h
      simp only [Dom.nids_node, List.mem_cons, not_or] at h
      rw [Dom.sibAfter_node, Dom.sibAfterL_none_of_not_mem h.2]
theorem Dom.sibAfterL_none_of_not_mem {k : Nat} :
    ∀ {l : List Dom}, k ∉ Dom.nidsL l → Dom.sibAfterL k l = none
  | [] => by intro h; simp
  | [c] => by
      intro h
      simp only [Dom.nidsL_cons, Dom.nidsL_nil, List.append_nil] at h
      rw [Dom.sibAfterL_singleton, if_neg, Dom.sibAfter_none_of_not_mem h]
      simp only [beq_iff_eq]
      intro hc
      exact h (hc ▸ Dom.nid_mem_self c)
  | c :: c2 :: cs => by
      intro h
      simp only [Dom.nidsL_cons, List.mem_append, not_or] at h
      rw [Dom.sibAfterL_cons2, if_neg]
      · rw [Dom.sibAfter_none_of_not_mem h.1]
        apply Dom.sibAfterL_none_of_not_mem
        simp only [Dom.nidsL_cons, List.mem_append, not_or]
        exact h.2
      · simp only [beq_iff_eq]
        intro hc
        exact h.1 (hc ▸ Dom.nid_mem_self c)
end

/-! ### Count equations for the tree transformers -/

mutual
theorem Dom.countP_insertAfter {p : Dom → Bool} (hp : ChildBlind p) (k : Nat)
    (w : Dom) :
    ∀ d : Dom, Dom.countP p (Dom.insertAfterNid k w d)
      = Dom.countP p d + (Dom.nidsL d.children).count k * Dom.countP p w
  | .node n t i ti cl ch => by
      rw [Dom.insertAfterNid_node, Dom.countP_node, Dom.countP_node,
        hp n t i ti cl (Dom.insertAfterNidL k w ch) ch,
        Dom.countPL_insertAfter hp k w ch]
      simp only [Dom.children]
      omega
theorem Dom.countPL_insertAfter {p : Dom → Bool} (hp : ChildBlind p) (k : Nat)
    (w : Dom) :
    ∀ l : List Dom, Dom.countPL p (Dom.insertAfterNidL k w l)
      = Dom.countPL p l + (Dom.nidsL l).count k * Dom.countP p w
  | [] => by simp
  | c :: cs => by
      rw [Dom.insertAfterNidL_cons]
      have hc := Dom.countP_insertAfter hp k w c
      have hcs := Dom.countPL_insertAfter hp k w cs
      by_cases hk : c.nid == k
      · rw [if_pos hk]
        simp only [Dom.countPL_cons, Dom.nidsL_cons, List.count_append, hc, hcs]
        have : c.nids.count k = 1 + (Dom.nidsL c.children).count k := by
          cases c with
          | node n2 t2 i2 ti2 cl2 ch2 =>
              simp only [Dom.nids_node, List.count_cons, Dom.children]
              have : n2 = k := by
                have := beq_iff_eq.mp hk
                simpa [Dom.nid] using this
              simp [this]
              omega
        rw [this]
        ring
      · rw [if_neg hk]
        simp only [Dom.countPL_cons, Dom.nidsL_cons, List.count_append, hc, hcs]
        have : c.nids.count k = (Dom.nidsL c.children).count k := by
          cases c with
          | node n2 t2 i2 ti2 cl2 ch2 =>
              simp only [Dom.nids_node, List.count_cons, Dom.children]
              have : ¬ n2 = k := by
                intro he
                exact hk (by simp [Dom.nid, he])
              simp [this]
        rw [this]
        ring
end

mutual
theorem Dom.count_nids_insertAfter (m k : Nat) (w : Dom) :
    ∀ d : Dom, (Dom.insertAfterNid k w d).nids.count m
      = d.nids.count m + (Dom.nidsL d.children).count k * w.nids.count m
  | .node n t i ti cl ch => by
      rw [Dom.insertAfterNid_node]
      simp only [Dom.nids_node, List.count_cons, Dom.children,
        Dom.count_nidsL_insertAfter m k w ch]
      omega
theorem Dom.count_nidsL_insertAfter (m k : Nat) (w : Dom) :
    ∀ l : List Dom, (Dom.nidsL (Dom.insertAfterNidL k w l)).count m
      = (Dom.nidsL l).count m + (Dom.nidsL l).count k * w.nids.count m
  | [] => by simp
  | c :: cs => by
      rw [Dom.insertAfterNidL_cons]
      have hc := Dom.count_nids_insertAfter m k w c
      have hcs := Dom.count_nidsL_insertAfter m k w cs
      by_cases hk : c.nid == k
      · rw [if_pos hk]
        simp only [Dom.nidsL_cons, List.count_append, hc, hcs]
        have : c.nids.count k = 1 + (Dom.nidsL c.children).count k := by
          cases c with
          | node n2 t2 i2 ti2 cl2 ch2 =>
              simp only [Dom.nids_node, List.count_cons, Dom.children]
              have : n2 = k := by
                have := beq_iff_eq.mp hk
                simpa [Dom.nid] using this
              simp [this]
              omega
        rw [this]
        ring
      · rw [if_neg hk]
        simp only [Dom.nidsL_cons, List.count_append, hc, hcs]
        have : c.nids.count k = (Dom.nidsL c.children).count k := by
          cases c with
          | node n2 t2 i2 ti2 cl2 ch2 =>
              simp only [Dom.nids_node, List.count_cons, Dom.children]
              have : ¬ n2 = k := by
                intro he
                exact hk (by simp [Dom.nid, he])
              simp [this]
        rw [this]
        ring
end

mutual
theorem Dom.countP_append {p : Dom → Bool} (hp : ChildBlind p) (k : Nat)
    (w : Dom) :
    ∀ d : Dom, Dom.countP p (Dom.appendChildNid k w d)
      = Dom.countP p d + d.nids.count k * Dom.countP p w
  | .node n t i ti cl ch => by
      rw [Dom.appendChildNid_node]
      have hch := Dom.countPL_append hp k w ch
      by_cases hk : n == k
      · rw [if_pos hk]
        rw [Dom.countP_node, Dom.countP_node,
          hp n t i ti cl (Dom.appendChildNidL k w ch ++ [w]) ch]
        have happ : Dom.countPL p (Dom.appendChildNidL k w ch ++ [w])
            = Dom.countPL p (Dom.appendChildNidL k w ch) + Dom.countP p w := by
          clear hch
          induction Dom.appendChildNidL k w ch with
          | nil => simp
          | cons a as ih => simp only [List.cons_append, Dom.countPL_cons, ih]; omega
        rw [happ, hch]
        simp only [Dom.nids_node, List.count_cons, beq_iff_eq.mp hk]
        simp
        ring
      · rw [if_neg hk]
        rw [Dom.countP_node, Dom.countP_node,
          hp n t i ti cl (Dom.appendChildNidL k w ch) ch, hch]
        simp only [Dom.nids_node, List.count_cons]
        have : ¬ n = k := fun he => hk (by simp [he])
        simp [this]
        ring
theorem Dom.countPL_append {p : Dom → Bool} (hp : ChildBlind p) (k : Nat)
    (w : Dom) :
    ∀ l : List Dom, Dom.countPL p (Dom.appendChildNidL k w l)
      = Dom.countPL p l + (Dom.nidsL l).count k * Dom.countP p w
  | [] => by simp
  | c :: cs => by
      rw [Dom.appendChildNidL_cons]
      simp only [Dom.countPL_cons, Dom.nidsL_cons, List.count_append,
        Dom.countP_append hp k w c, Dom.countPL_append hp k w cs]
      ring
end

mutual
theorem Dom.count_nids_append (m k : Nat) (w : Dom) :
    ∀ d : Dom, (Dom.appendChildNid k w d).nids.count m
      = d.nids.count m + d.nids.count k * w.nids.count m
  | .node n t i ti cl ch => by
      rw [Dom.appendChildNid_node]
      have hch := Dom.count_nidsL_append m k w ch
      by_cases hk : n == k
      · rw [if_pos hk]
        have happ : (Dom.nidsL (Dom.appendChildNidL k w ch ++ [w])).count m
            = (Dom.nidsL (Dom.appendChildNidL k w ch)).count m + w.nids.count m := by
          clear hch
          induction Dom.appendChildNidL k w ch with
          | nil => simp
          | cons a as ih =>
              simp only [List.cons_append, Dom.nidsL_cons, List.count_append] at ih ⊢
              omega
        simp only [Dom.nids_node, List.count_cons, happ, hch, beq_iff_eq.mp hk]
        simp
        ring
      · rw [if_neg hk]
        simp only [Dom.nids_node, List.count_cons, hch]
        have : ¬ n = k := fun he => hk (by simp [he])
        simp [this]
        ring
theorem Dom.count_nidsL_append (m k : Nat) (w : Dom) :
    ∀ l : List Dom, (Dom.nidsL (Dom.appendChildNidL k w l)).count m
      = (Dom.nidsL l).count m + (Dom.nidsL l).count k * w.nids.count m
  | [] => by simp
  | c :: cs => by
      rw [Dom.appendChildNidL_cons]
      simp only [Dom.nidsL_cons, List.count_append,
        Dom.count_nids_append m k w c, Dom.count_nidsL_append m k w cs]
      ring
end

mutual
theorem Dom.countP_addClasses {p : Dom → Bool} (hp : StyleBlind p) (k : Nat)
    (extra : List String) :
    ∀ d : Dom, Dom.countP p (Dom.addClassesNid k extra d) = Dom.countP p d
  | .node n t i ti cl ch => by
      rw [Dom.addClassesNid_node, Dom.countP_node, Dom.countP_node,
        hp n t i ti (if n == k then classAdd cl extra else cl) cl
          (Dom.addClassesNidL k extra ch) ch,
        Dom.countPL_addClasses hp k extra ch]
theorem Dom.countPL_addClasses {p : Dom → Bool} (hp : StyleBlind p) (k : Nat)
    (extra : List String) :
    ∀ l : List Dom, Dom.countPL p (Dom.addClassesNidL k extra l) = Dom.countPL p l
  | [] => by simp
  | c :: cs => by
      rw [Dom.addClassesNidL_cons]
      simp only [Dom.countPL_cons, Dom.countP_addClasses hp k extra c,
        Dom.countPL_addClasses hp k extra cs]
end

mutual
theorem Dom.nids_addClasses (k : Nat) (extra : List String) :
    ∀ d : Dom, (Dom.addClassesNid k extra d).nids = d.nids
  | .node n t i ti cl ch => by
      rw [Dom.addClassesNid_node]
      simp only [Dom.nids_node, Dom.nidsL_addClasses k extra ch]
theorem Dom.nidsL_addClasses (k : Nat) (extra : List String) :
    ∀ l : List Dom, Dom.nidsL (Dom.addClassesNidL k extra l) = Dom.nidsL l
  | [] => by simp
  | c :: cs => by
      rw [Dom.addClassesNidL_cons]
      simp only [Dom.nidsL_cons, Dom.nids_addClasses k extra c,
        Dom.nidsL_addClasses k extra cs]
end

/-! ### Sibling observer lemmas -/

theorem Dom.sibAfterL_cons_of_nid {k : Nat} {c : Dom} (t : List Dom)
    (hk : c.nid == k) : Dom.sibAfterL k (c :: t) = t.head? := by
  cases t with
  | nil => rw [Dom.sibAfterL_singleton, if_pos hk]; rfl
  | cons c2 cs => rw [Dom.sibAfterL_cons2, if_pos hk]; rfl

theorem Dom.sibAfterL_cons_of_some {k : Nat} {c x : Dom} (t : List Dom)
    (hk : ¬ c.nid == k) (hs : Dom.sibAfter k c = some x) :
    Dom.sibAfterL k (c :: t) = some x := by
  cases t with
  | nil => rw [Dom.sibAfterL_singleton, if_neg hk, hs]
  | cons c2 cs => rw [Dom.sibAfterL_cons2, if_neg hk, hs]

theorem Dom.sibAfterL_cons_of_none {k : Nat} {c : Dom} (t : List Dom)
    (hk : ¬ c.nid == k) (hs : Dom.sibAfter k c = none) :
    Dom.sibAfterL k (c :: t) = Dom.sibAfterL k t := by
  cases t with
  | nil => rw [Dom.sibAfterL_singleton, if_neg hk, hs]; rfl
  | cons c2 cs => rw [Dom.sibAfterL_cons2, if_neg hk, hs]

mutual
theorem Dom.sibAfter_some_sub {k : Nat} {x : Dom} :
    ∀ {d : Dom}, Dom.sibAfter k d = some x → SubNode x d
  | .node n t i ti cl ch => by
      intro h
      rw [Dom.sibAfter_node] at h
      obtain ⟨c, hc, hsub⟩ := Dom.sibAfterL_some_sub h
      exact SubNode.step hc hsub
theorem Dom.sibAfterL_some_sub {k : Nat} {x : Dom} :
    ∀ {l : List Dom}, Dom.sibAfterL k l = some x → ∃ c ∈ l, SubNode x c
  | [] => by simp
  | [c] => by
      rw [Dom.sibAfterL_singleton]
      split
      · intro h; cases h
      · intro h
        exact ⟨c, List.mem_singleton.mpr rfl, Dom.sibAfter_some_sub h⟩
  | c :: c2 :: cs => by
      rw [Dom.sibAfterL_cons2]
      split
      · intro h; cases h
        exact ⟨x, by simp, SubNode.refl _⟩
      · cases hc : Dom.sibAfter k c with
        | some y =>
            intro h; cases h
            exact ⟨c, by simp, Dom.sibAfter_some_sub hc⟩
        | none =>
            intro h
            obtain ⟨c3, hc3, hsub⟩ := Dom.sibAfterL_some_sub h
            exact ⟨c3, by simp [List.mem_cons.mp hc3], hsub⟩
end

/- Inserting after the anchor makes the inserted node the anchor's next
sibling. -/
mutual
theorem Dom.sibAfter_insert {k : Nat} {w : Dom} :
    ∀ {d : Dom}, k ∈ Dom.nidsL d.children →
      Dom.sibAfter k (Dom.insertAfterNid k w d) = some w
  | .node n t i ti cl ch => by
      intro hm
      simp only [Dom.children] at hm
      rw [Dom.insertAfterNid_node, Dom.sibAfter_node]
      exact Dom.sibAfterL_insert hm
theorem Dom.sibAfterL_insert {k : Nat} {w : Dom} :
    ∀ {l : List Dom}, k ∈ Dom.nidsL l →
      Dom.sibAfterL k (Dom.insertAfterNidL k w l) = some w
  | [] => by simp
  | c :: cs => by
      intro hm
      rw [Dom.insertAfterNidL_cons]
      by_cases hk : c.nid == k
      · rw [if_pos hk]
        rw [Dom.sibAfterL_cons_of_nid _ (by rw [Dom.nid_insertAfter]; exact hk)]
        rfl
      · rw [if_neg hk]
        simp only [Dom.nidsL_cons, List.mem_append] at hm
        by_cases hmc : k ∈ c.nids
        · have hkch : k ∈ Dom.nidsL c.children := by
            cases c with
            | node n2 t2 i2 ti2 cl2 ch2 =>
                simp only [Dom.nids_node, List.mem_cons] at hmc
                rcases hmc with h | h
                · exact absurd (by simp [Dom.nid, h]) hk
                · simpa [Dom.children] using h
          exact Dom.sibAfterL_cons_of_some _
            (by rw [Dom.nid_insertAfter]; exact hk) (Dom.sibAfter_insert hkch)
        · have hmcs : k ∈ Dom.nidsL cs := by
            rcases hm with h | h
            · exact absurd h hmc
            · exact h
          rw [Dom.insertAfterNid_of_not_mem hmc]
          rw [Dom.sibAfterL_cons_of_none _ hk (Dom.sibAfter_none_of_not_mem hmc)]
          exact Dom.sibAfterL_insert hmcs
end

/- The sibling observer commutes with in-place class addition. -/
mutual
theorem Dom.sibAfter_addClasses (k j : Nat) (extra : List String) :
    ∀ d : Dom, Dom.sibAfter k (Dom.addClassesNid j extra d)
      = (Dom.sibAfter k d).map (Dom.addClassesNid j extra)
  | .node n t i ti cl ch => by
      rw [Dom.addClassesNid_node, Dom.sibAfter_node, Dom.sibAfter_node]
      exact Dom.sibAfterL_addClasses k j extra ch
theorem Dom.sibAfterL_addClasses (k j : Nat) (extra : List String) :
    ∀ l : List Dom, Dom.sibAfterL k (Dom.addClassesNidL j extra l)
      = (Dom.sibAfterL k l).map (Dom.addClassesNid j extra)
  | [] => by simp
  | c :: cs => by
      rw [Dom.addClassesNidL_cons]
      by_cases hk : c.nid == k
      · rw [Dom.sibAfterL_cons_of_nid _ (by rw [Dom.nid_addClasses]; exact hk),
          Dom.sibAfterL_cons_of_nid _ hk]
        cases cs with
        | nil => simp
        | cons c2 cs2 => simp
      · cases hc : Dom.sibAfter k c with
        | some y =>
            rw [Dom.sibAfterL_cons_of_some _ (by rw [Dom.nid_addClasses]; exact hk)
              (by rw [Dom.sibAfter_addClasses k j extra c, hc]; rfl),
              Dom.sibAfterL_cons_of_some _ hk hc]
            rfl
        | none =>
            rw [Dom.sibAfterL_cons_of_none _ (by rw [Dom.nid_addClasses]; exact hk)
              (by rw [Dom.sibAfter_addClasses k j extra c, hc]; rfl),
              Dom.sibAfterL_cons_of_none _ hk hc]
            exact Dom.sibAfterL_addClasses k j extra cs
end

theorem Dom.sibAfterL_some_nids_subset {k : Nat} {x : Dom} {l : List Dom}
    (h : Dom.sibAfterL k l = some x) : x.nids ⊆ Dom.nidsL l := by
  obtain ⟨c, hc, hsub⟩ := Dom.sibAfterL_some_sub h
  exact SubNode.nids_subset_of_mem hc hsub.nids_subset

theorem Dom.sibAfter_some_nids_subset {k : Nat} {x : Dom} {d : Dom}
    (h : Dom.sibAfter k d = some x) : x.nids ⊆ Dom.nidsL d.children := by
  cases d with
  | node n t i ti cl ch =>
      rw [Dom.sibAfter_node] at h
      simpa [Dom.children] using Dom.sibAfterL_some_nids_subset h

/- Removal of a subtree cannot create a next sibling. -/
mutual
theorem Dom.sibAfter_remove_none {k r : Nat} :
    ∀ {d : Dom}, Dom.sibAfter k d = none →
      Dom.sibAfter k (Dom.removeNid r d) = none
  | .node n t i ti cl ch => by
      intro h
      rw [Dom.sibAfter_node] at h
      rw [Dom.removeNid_node, Dom.sibAfter_node]
      exact Dom.sibAfterL_remove_none h
theorem Dom.sibAfterL_remove_none {k r : Nat} :
    ∀ {l : List Dom}, Dom.sibAfterL k l = none →
      Dom.sibAfterL k (Dom.removeNidL r l) = none
  | [] => by simp
  | [c] => by
      rw [Dom.sibAfterL_singleton]
      by_cases hk : c.nid == k
      · intro _
        rw [Dom.removeNidL_cons]
        by_cases hr : c.nid == r
        · rw [if_pos hr]; simp
        · rw [if_neg hr]
          simp only [Dom.removeNidL_nil]
          rw [Dom.sibAfterL_singleton, if_pos (by rw [Dom.nid_removeNid]; exact hk)]
      · rw [if_neg hk]
        intro h
        rw [Dom.removeNidL_cons]
        by_cases hr : c.nid == r
        · rw [if_pos hr]; simp
        · rw [if_neg hr]
          simp only [Dom.removeNidL_nil]
          rw [Dom.sibAfterL_singleton, if_neg (by rw [Dom.nid_removeNid]; exact hk)]
          exact Dom.sibAfter_remove_none h
  | c :: c2 :: cs => by
      rw [Dom.sibAfterL_cons2]
      by_cases hk : c.nid == k
      · rw [if_pos hk]; intro h; cases h
      · rw [if_neg hk]
        cases hc : Dom.sibAfter k c with
        | some y => intro h; cases h
        | none =>
            intro h
            rw [Dom.removeNidL_cons]
            by_cases hr : c.nid == r
            · rw [if_pos hr]
              exact Dom.sibAfterL_remove_none h
            · rw [if_neg hr]
              rw [Dom.sibAfterL_cons_of_none _ (by rw [Dom.nid_removeNid]; exact hk)
                (Dom.sibAfter_remove_none hc)]
              exact Dom.sibAfterL_remove_none h
end

/- Removing a node strictly inside the next sibling keeps it the next
sibling (with the removal applied inside it). -/
mutual
theorem Dom.sibAfter_remove_inside {k r : Nat} {x : Dom} :
    ∀ {d : Dom}, d.nids.Nodup → Dom.sibAfter k d = some x →
      r ∈ x.nids → r ≠ x.nid →
      Dom.sibAfter k (Dom.removeNid r d) = some (Dom.removeNid r x)
  | .node n t i ti cl ch => by
      intro hnd h hr hrx
      rw [Dom.sibAfter_node] at h
      rw [Dom.removeNid_node, Dom.sibAfter_node]
      simp only [Dom.nids_node, List.nodup_cons] at hnd
      exact Dom.sibAfterL_remove_inside hnd.2 h hr hrx
theorem Dom.sibAfterL_remove_inside {k r : Nat} {x : Dom} :
    ∀ {l : List Dom}, (Dom.nidsL l).Nodup → Dom.sibAfterL k l = some x →
      r ∈ x.nids → r ≠ x.nid →
      Dom.sibAfterL k (Dom.removeNidL r l) = some (Dom.removeNid r x)
  | [] => by simp
  | [c] => by
      intro hnd h hr hrx
      rw [Dom.sibAfterL_singleton] at h
      by_cases hk : c.nid == k
      · rw [if_pos hk] at h; cases h
      · rw [if_neg hk] at h
        have hrch : r ∈ Dom.nidsL c.children :=
          Dom.sibAfter_some_nids_subset h hr
        have hcr : ¬ c.nid == r := by
          simp only [beq_iff_eq]
          intro he
          simp only [Dom.nidsL_cons, Dom.nidsL_nil, List.append_nil] at hnd
          cases c with
          | node n2 t2 i2 ti2 cl2 ch2 =>
              simp only [Dom.nids_node, List.nodup_cons] at hnd
              simp only [Dom.nid] at he
              simp only [Dom.children] at hrch
              exact hnd.1 (he ▸ hrch)
        rw [Dom.removeNidL_cons, if_neg hcr]
        simp only [Dom.removeNidL_nil]
        rw [Dom.sibAfterL_singleton, if_neg (by rw [Dom.nid_removeNid]; exact hk)]
        have hndc : c.nids.Nodup := by
          simp only [Dom.nidsL_cons, Dom.nidsL_nil, List.append_nil] at hnd
          exact hnd
        exact Dom.sibAfter_remove_inside hndc h hr hrx
  | c :: c2 :: cs => by
      intro hnd h hr hrx
      simp only [Dom.nidsL_cons, List.nodup_append] at hnd
      rw [Dom.sibAfterL_cons2] at h
      by_cases hk : c.nid == k
      · rw [if_pos hk] at h
        cases h
        have hkc : k ∈ c.nids := beq_iff_eq.mp hk ▸ Dom.nid_mem_self c
        have hrx2 : r ∈ Dom.nidsL (x :: cs) := by
          simp only [Dom.nidsL_cons, List.mem_append]
          exact Or.inl hr
        have hcr : ¬ c.nid == r := by
          simp only [beq_iff_eq]
          intro he
          exact hnd.2.2 (he ▸ Dom.nid_mem_self c) hrx2
        rw [Dom.removeNidL_cons, if_neg hcr, Dom.removeNidL_cons,
          if_neg (by simp only [beq_iff_eq]; exact fun he => hrx he.symm)]
        rw [Dom.sibAfterL_cons_of_nid _ (by rw [Dom.nid_removeNid]; exact hk)]
        rfl
      · rw [if_neg hk] at h
        cases hc : Dom.sibAfter k c with
        | some y =>
            rw [hc] at h
            cases h
            have hrch : r ∈ Dom.nidsL c.children :=
              Dom.sibAfter_some_nids_subset hc hr
            have hrc : r ∈ c.nids := by
              cases c with
              | node n2 t2 i2 ti2 cl2 ch2 =>
                  simp only [Dom.nids_node, List.mem_cons]
                  simp only [Dom.children] at hrch
                  exact Or.inr hrch
            have hcr : ¬ c.nid == r := by
              simp only [beq_iff_eq]
              intro he
              cases c with
              | node n2 t2 i2 ti2 cl2 ch2 =>
                  have := hnd.1
                  simp only [Dom.nids_node, List.nodup_cons] at this
                  simp only [Dom.nid] at he
                  simp only [Dom.children] at hrch
                  exact this.1 (he ▸ hrch)
            rw [Dom.removeNidL_cons, if_neg hcr]
            exact Dom.sibAfterL_cons_of_some _
              (by rw [Dom.nid_removeNid]; exact hk)
              (Dom.sibAfter_remove_inside hnd.1 hc hr hrx)
        | none =>
            rw [hc] at h
            have hrtail : r ∈ Dom.nidsL (c2 :: cs) :=
              Dom.sibAfterL_some_nids_subset h hr
            have hcr : ¬ c.nid == r := by
              simp only [beq_iff_eq]
              intro he
              exact hnd.2.2 (he ▸ Dom.nid_mem_self c) hrtail
            have hrnotc : r ∉ c.nids := fun hm => hnd.2.2 hm hrtail
            rw [Dom.removeNidL_cons, if_neg hcr]
            rw [Dom.sibAfterL_cons_of_none _ (by rw [Dom.nid_removeNid]; exact hk)
              (by rw [Dom.removeNid_of_not_mem hrnotc]; exact hc)]
            exact Dom.sibAfterL_remove_inside
              (by simp only [Dom.nidsL_cons, List.nodup_append]; exact hnd.2.1) h hr hrx
end

/-! ### findFirst: interaction with the transformers -/

theorem Dom.findFirstL_append (p : Dom → Bool) (l1 l2 : List Dom) :
    Dom.findFirstL p (l1 ++ l2) =
      (match Dom.findFirstL p l1 with
       | some x => some x
       | none => Dom.findFirstL p l2) := by
  induction l1 with
  | nil => simp
  | cons c cs ih =>
      rw [List.cons_append, Dom.findFirstL_cons, Dom.findFirstL_cons]
      cases hc : Dom.findFirst p c with
      | some y => rfl
      | none => simpa using ih

mutual
theorem Dom.countP_pos_of_findFirst {p : Dom → Bool} {x : Dom} :
    ∀ {d : Dom}, Dom.findFirst p d = some x → 0 < Dom.countP p d
  | .node n t i ti cl ch => by
      rw [Dom.findFirst_node, Dom.countP_node]
      split
      · intro _; simp
      · intro h
        have := Dom.countPL_pos_of_findFirstL h
        omega
theorem Dom.countPL_pos_of_findFirstL {p : Dom → Bool} {x : Dom} :
    ∀ {l : List Dom}, Dom.findFirstL p l = some x → 0 < Dom.countPL p l
  | [] => by simp
  | c :: cs => by
      rw [Dom.findFirstL_cons]
      cases hc : Dom.findFirst p c with
      | some y =>
          intro _
          have := Dom.countP_pos_of_findFirst hc
          simp only [Dom.countPL_cons]
          omega
      | none =>
          intro h
          have := Dom.countPL_pos_of_findFirstL h
          simp only [Dom.countPL_cons]
          omega
end

theorem Dom.findFirst_none_of_countP_zero {p : Dom → Bool} {d : Dom}
    (h : Dom.countP p d = 0) : Dom.findFirst p d = none := by
  cases hf : Dom.findFirst p d with
  | none => rfl
  | some x =>
      have := Dom.countP_pos_of_findFirst hf
      omega

theorem Dom.findFirstL_none_of_countPL_zero {p : Dom → Bool} {l : List Dom}
    (h : Dom.countPL p l = 0) : Dom.findFirstL p l = none := by
  cases hf : Dom.findFirstL p l with
  | none => rfl
  | some x =>
      have := Dom.countPL_pos_of_findFirstL hf
      omega

/- findFirst commutes with in-place class addition for style-blind
selectors. -/
mutual
theorem Dom.findFirst_addClasses {p : Dom → Bool} (hp : StyleBlind p)
    (j : Nat) (extra : List String) :
    ∀ d : Dom, Dom.findFirst p (Dom.addClassesNid j extra d)
      = (Dom.findFirst p d).map (Dom.addClassesNid j extra)
  | .node n t i ti cl ch => by
      rw [Dom.addClassesNid_node, Dom.findFirst_node, Dom.findFirst_node,
        hp n t i ti (if n == j then classAdd cl extra else cl) cl
          (Dom.addClassesNidL j extra ch) ch]
      split
      · rw [Option.map_some', Dom.addClassesNid_node]
      · exact Dom.findFirstL_addClasses hp j extra ch
theorem Dom.findFirstL_addClasses {p : Dom → Bool} (hp : StyleBlind p)
    (j : Nat) (extra : List String) :
    ∀ l : List Dom, Dom.findFirstL p (Dom.addClassesNidL j extra l)
      = (Dom.findFirstL p l).map (Dom.addClassesNid j extra)
  | [] => by simp
  | c :: cs => by
      rw [Dom.addClassesNidL_cons, Dom.findFirstL_cons, Dom.findFirstL_cons,
        Dom.findFirst_addClasses hp j extra c]
      cases hc : Dom.findFirst p c with
      | some y => rfl
      | none => simpa using Dom.findFirstL_addClasses hp j extra cs
end

/- findFirst commutes with insertion of a node that matches nowhere. -/
mutual
theorem Dom.findFirst_insertAfter {p : Dom → Bool} (hp : ChildBlind p)
    {w : Dom} (hw : Dom.countP p w = 0) (k : Nat) :
    ∀ d : Dom, Dom.findFirst p (Dom.insertAfterNid k w d)
      = (Dom.findFirst p d).map (Dom.insertAfterNid k w)
  | .node n t i ti cl ch => by
      rw [Dom.insertAfterNid_node, Dom.findFirst_node, Dom.findFirst_node,
        hp n t i ti cl (Dom.insertAfterNidL k w ch) ch]
      split
      · rw [Option.map_some', Dom.insertAfterNid_node]
      · exact Dom.findFirstL_insertAfter hp hw k ch
theorem Dom.findFirstL_insertAfter {p : Dom → Bool} (hp : ChildBlind p)
    {w : Dom} (hw : Dom.countP p w = 0) (k : Nat) :
    ∀ l : List Dom, Dom.findFirstL p (Dom.insertAfterNidL k w l)
      = (Dom.findFirstL p l).map (Dom.insertAfterNid k w)
  | [] => by simp
  | c :: cs => by
      rw [Dom.insertAfterNidL_cons]
      by_cases hk : c.nid == k
      · rw [if_pos hk, Dom.findFirstL_cons, Dom.findFirst_insertAfter hp hw k c]
        cases hc : Dom.findFirst p c with
        | some y =>
            conv_rhs => rw [Dom.findFirstL_cons, hc]
            rfl
        | none =>
            conv_rhs => rw [Dom.findFirstL_cons, hc]
            show Dom.findFirstL p (w :: Dom.insertAfterNidL k w cs)
              = (Dom.findFirstL p cs).map (Dom.insertAfterNid k w)
            rw [Dom.findFirstL_cons, Dom.findFirst_none_of_countP_zero hw]
            exact Dom.findFirstL_insertAfter hp hw k cs
      · rw [if_neg hk, Dom.findFirstL_cons, Dom.findFirst_insertAfter hp hw k c]
        cases hc : Dom.findFirst p c with
        | some y =>
            conv_rhs => rw [Dom.findFirstL_cons, hc]
            rfl
        | none =>
            conv_rhs => rw [Dom.findFirstL_cons, hc]
            simpa using Dom.findFirstL_insertAfter hp hw k cs
end

/- findFirst commutes with appending a node that matches nowhere. -/
mutual
theorem Dom.findFirst_append {p : Dom → Bool} (hp : ChildBlind p)
    {w : Dom} (hw : Dom.countP p w = 0) (k : Nat) :
    ∀ d : Dom, Dom.findFirst p (Dom.appendChildNid k w d)
      = (Dom.findFirst p d).map (Dom.appendChildNid k w)
  | .node n t i ti cl ch => by
      rw [Dom.appendChildNid_node]
      by_cases hk : n == k
      · rw [if_pos hk, Dom.findFirst_node, Dom.findFirst_node,
          hp n t i ti cl (Dom.appendChildNidL k w ch ++ [w]) ch]
        split
        · rw [Option.map_some', Dom.appendChildNid_node, if_pos hk]
        · rw [Dom.findFirstL_append, Dom.findFirstL_append_w hp hw k ch]
          cases hc : Dom.findFirstL p ch with
          | some y => rfl
          | none =>
              show Dom.findFirstL p [w] = Option.map (Dom.appendChildNid k w) none
              rw [Dom.findFirstL_cons, Dom.findFirst_none_of_countP_zero hw]
              simp
      · rw [if_neg hk, Dom.findFirst_node, Dom.findFirst_node,
          hp n t i ti cl (Dom.appendChildNidL k w ch) ch]
        split
        · rw [Option.map_some', Dom.appendChildNid_node, if_neg hk]
        · exact Dom.findFirstL_append_w hp hw k ch
theorem Dom.findFirstL_append_w {p : Dom → Bool} (hp : ChildBlind p)
    {w : Dom} (hw : Dom.countP p w = 0) (k : Nat) :
    ∀ l : List Dom, Dom.findFirstL p (Dom.appendChildNidL k w l)
      = (Dom.findFirstL p l).map (Dom.appendChildNid k w)
  | [] => by simp
  | c :: cs => by
      rw [Dom.appendChildNidL_cons, Dom.findFirstL_cons,
        Dom.findFirst_append hp hw k c]
      cases hc : Dom.findFirst p c with
      | some y =>
          conv_rhs => rw [Dom.findFirstL_cons, hc]
          rfl
      | none =>
          conv_rhs => rw [Dom.findFirstL_cons, hc]
          simpa using Dom.findFirstL_append_w hp hw k cs
end

theorem Dom.map_remove_found_id {p : Dom → Bool} {l : List Dom} {k : Nat}
    (hnm : k ∉ Dom.nidsL l) :
    (Dom.findFirstL p l).map (Dom.removeNid k) = Dom.findFirstL p l := by
  cases hf : Dom.findFirstL p l with
  | none => rfl
  | some y =>
      obtain ⟨c, hc, hsub⟩ := Dom.findFirstL_sub hf
      rw [Option.map_some', Dom.removeNid_of_not_mem
        (fun hm => hnm (SubNode.nids_subset_of_mem hc hsub.nids_subset hm))]

/- findFirst commutes with removing one subtree that matches nowhere. -/
mutual
theorem Dom.findFirst_remove {p : Dom → Bool} (hp : ChildBlind p) {x : Dom} :
    ∀ {d : Dom}, d.nids.Nodup → SubNode x d → x.nid ≠ d.nid →
      Dom.countP p x = 0 →
      Dom.findFirst p (Dom.removeNid x.nid d)
        = (Dom.findFirst p d).map (Dom.removeNid x.nid)
  | .node n t i ti cl ch => by
      intro hnd hsub hne hx0
      rw [Dom.removeNid_node, Dom.findFirst_node, Dom.findFirst_node,
        hp n t i ti cl (Dom.removeNidL x.nid ch) ch]
      simp only [Dom.nid] at hne
      simp only [Dom.nids_node, List.nodup_cons] at hnd
      cases hsub with
      | refl => exact absurd rfl hne
      | step hc hx =>
          split
          · rw [Option.map_some', Dom.removeNid_node]
          · exact Dom.findFirstL_remove hp hnd.2 hc hx hx0
theorem Dom.findFirstL_remove {p : Dom → Bool} (hp : ChildBlind p) {x c0 : Dom} :
    ∀ {l : List Dom}, (Dom.nidsL l).Nodup → c0 ∈ l → SubNode x c0 →
      Dom.countP p x = 0 →
      Dom.findFirstL p (Dom.removeNidL x.nid l)
        = (Dom.findFirstL p l).map (Dom.removeNid x.nid)
  | [] => by intro _ h; cases h
  | c :: cs => by
      intro hnd hmem hx hx0
      simp only [Dom.nidsL_cons, List.nodup_append] at hnd
      rcases List.mem_cons.mp hmem with h | h
      · rw [h] at hx
        have hxc : x.nids ⊆ c.nids := hx.nids_subset
        have hnotcs : x.nid ∉ Dom.nidsL cs :=
          fun hm => hnd.2.2 (hxc (Dom.nid_mem_self x)) hm
        rw [Dom.removeNidL_cons]
        by_cases hk : c.nid == x.nid
        · rw [if_pos hk]
          have hxeq : x = c :=
            SubNode.eq_of_nid_eq hnd.1 hx (beq_iff_eq.mp hk).symm
          rw [Dom.removeNidL_of_not_mem hnotcs]
          conv_rhs => rw [Dom.findFirstL_cons]
          rw [Dom.findFirst_none_of_countP_zero (hxeq ▸ hx0)]
          exact (Dom.map_remove_found_id hnotcs).symm
        · rw [if_neg hk, Dom.removeNidL_of_not_mem hnotcs]
          conv_rhs => rw [Dom.findFirstL_cons]
          rw [Dom.findFirstL_cons]
          rw [Dom.findFirst_remove hp hnd.1 hx
            (fun he => hk (by simp [beq_iff_eq, he.symm])) hx0]
          cases hf : Dom.findFirst p c with
          | some y => rfl
          | none =>
              rw [Option.map_none']
              exact (Dom.map_remove_found_id hnotcs).symm
      · have hxin : x.nid ∈ Dom.nidsL cs :=
          SubNode.nids_subset_of_mem h hx.nids_subset (Dom.nid_mem_self x)
        have hnotc : x.nid ∉ c.nids := fun hm => hnd.2.2 hm hxin
        rw [Dom.removeNidL_cons, if_neg (by
          simp only [beq_iff_eq]
          exact fun he => hnotc (he ▸ Dom.nid_mem_self c))]
        rw [Dom.removeNid_of_not_mem hnotc]
        rw [Dom.findFirstL_cons]
        conv_rhs => rw [Dom.findFirstL_cons]
        cases hf : Dom.findFirst p c with
        | some y =>
            rw [Option.map_some', Dom.removeNid_of_not_mem (fun hm =>
              hnotc ((Dom.findFirst_sub hf).nids_subset hm))]
        | none => exact Dom.findFirstL_remove hp hnd.2.1 h hx hx0
end

/- Appending into a document with no match: the first match afterwards
comes from the appended node, provided the append target exists. -/
mutual
theorem Dom.findFirst_append_fresh {p : Dom → Bool} (hp : ChildBlind p)
    {w : Dom} (k : Nat) :
    ∀ {d : Dom}, Dom.countP p d = 0 →
      Dom.findFirst p (Dom.appendChildNid k w d)
        = (if k ∈ d.nids then Dom.findFirst p w else none)
  | .node n t i ti cl ch => by
      intro h0
      rw [Dom.countP_node] at h0
      have hroot : p (.node n t i ti cl ch) = false := by
        cases hp2 : p (.node n t i ti cl ch) with
        | false => rfl
        | true => rw [hp2] at h0; simp at h0
      have hch0 : Dom.countPL p ch = 0 := by
        rw [hroot] at h0; simpa using h0
      rw [Dom.appendChildNid_node]
      by_cases hk : n == k
      · rw [if_pos hk, Dom.findFirst_node,
          hp n t i ti cl (Dom.appendChildNidL k w ch ++ [w]) ch, hroot]
        simp only [Bool.false_eq_true, if_false]
        rw [Dom.findFirstL_append, Dom.findFirstL_append_fresh hp k hch0]
        have hmem : k ∈ (Dom.node n t i ti cl ch).nids := by
          simp only [Dom.nids_node, List.mem_cons]
          exact Or.inl (beq_iff_eq.mp hk).symm
        rw [if_pos hmem]
        by_cases hkch : k ∈ Dom.nidsL ch
        · rw [if_pos hkch]
          cases hw : Dom.findFirst p w with
          | some v => rfl
          | none =>
              show Dom.findFirstL p [w] = none
              rw [Dom.findFirstL_cons, hw]
              simp
        · rw [if_neg hkch]
          show Dom.findFirstL p [w] = Dom.findFirst p w
          rw [Dom.findFirstL_cons]
          cases hw : Dom.findFirst p w with
          | some v => rfl
          | none => simp
      · rw [if_neg hk, Dom.findFirst_node,
          hp n t i ti cl (Dom.appendChildNidL k w ch) ch, hroot]
        simp only [Bool.false_eq_true, if_false]
        rw [Dom.findFirstL_append_fresh hp k hch0]
        have hiff : (k ∈ Dom.nidsL ch) ↔ (k ∈ (Dom.node n t i ti cl ch).nids) := by
          simp only [Dom.nids_node, List.mem_cons]
          constructor
          · exact Or.inr
          · intro h
            rcases h with h | h
            · exact absurd (by simp [beq_iff_eq, h.symm]) hk
            · exact h
        exact if_congr hiff rfl rfl
theorem Dom.findFirstL_append_fresh {p : Dom → Bool} (hp : ChildBlind p)
    {w : Dom} (k : Nat) :
    ∀ {l : List Dom}, Dom.countPL p l = 0 →
      Dom.findFirstL p (Dom.appendChildNidL k w l)
        = (if k ∈ Dom.nidsL l then Dom.findFirst p w else none)
  | [] => by intro _; simp
  | c :: cs => by
      intro h0
      simp only [Dom.countPL_cons, Nat.add_eq_zero] at h0
      rw [Dom.appendChildNidL_cons, Dom.findFirstL_cons,
        Dom.findFirst_append_fresh hp k h0.1]
      by_cases hkc : k ∈ c.nids
      · rw [if_pos hkc]
        have hmem : k ∈ Dom.nidsL (c :: cs) := by
          simp only [Dom.nidsL_cons, List.mem_append]
          exact Or.inl hkc
        rw [if_pos hmem]
        cases hw : Dom.findFirst p w with
        | some v => rfl
        | none =>
            show Dom.findFirstL p (Dom.appendChildNidL k w cs) = none
            rw [Dom.findFirstL_append_fresh hp k h0.2, hw]
            simp
      · rw [if_neg hkc]
        show Dom.findFirstL p (Dom.appendChildNidL k w cs) = _
        rw [Dom.findFirstL_append_fresh hp k h0.2]
        have hiff : (k ∈ Dom.nidsL cs) ↔ (k ∈ Dom.nidsL (c :: cs)) := by
          simp only [Dom.nidsL_cons, List.mem_append]
          constructor
          · exact Or.inr
          · intro h
            rcases h with h | h
            · exact absurd h hkc
            · exact h
        exact if_congr hiff rfl rfl
end

/-! ### countP monotonicity over occurrence -/

theorem Dom.countP_le_of_mem {p : Dom → Bool} {c : Dom} {l : List Dom}
    (h : c ∈ l) : Dom.countP p c ≤ Dom.countPL p l := by
  induction l with
  | nil => cases h
  | cons c2 cs ih =>
      simp only [Dom.countPL_cons]
      rcases List.mem_cons.mp h with h1 | h1
      · subst h1; omega
      · have := ih h1; omega

theorem SubNode.countP_le {p : Dom → Bool} {x d : Dom} (h : SubNode x d) :
    Dom.countP p x ≤ Dom.countP p d := by
  induction h with
  | refl => exact Nat.le_refl _
  | step hc _ ih =>
      rw [Dom.countP_node]
      have := Dom.countP_le_of_mem (p := p) hc
      omega

/-! ### The content script (content/content.js) -/

def ICON_ID : String := "local-unifi-drive-icon"

def DEFAULT_LINK : String := "https://example.com"

/-- getElementById(ICON_ID) match. -/
def isIcon (d : Dom) : Bool := d.attrId == ICON_ID

/-- The explicit header container selector
div.unifi-portal-1vz64y0.evzy7n80 (line 158). -/
def isContainerSel (d : Dom) : Bool :=
  d.tag == "div" && d.classes.contains "unifi-portal-1vz64y0"
    && d.classes.contains "evzy7n80"

/-- The preferred anchor a[data-testid="applink-protect"]. -/
def isProtect (d : Dom) : Bool :=
  d.tag == "a" && d.testid == "applink-protect"

/-- The secondary anchor a[data-testid="applink-network"]. -/
def isNetwork (d : Dom) : Bool :=
  d.tag == "a" && d.testid == "applink-network"

/-- Number of elements carrying the reserved icon id. -/
def countIcon (d : Dom) : Nat := Dom.countP isIcon d

theorem isIcon_styleBlind : StyleBlind isIcon := by
  intro n t i ti cl cl2 ch ch2
  simp [isIcon, Dom.attrId]

theorem isProtect_styleBlind : StyleBlind isProtect := by
  intro n t i ti cl cl2 ch ch2
  simp [isProtect, Dom.tag, Dom.testid]

theorem isNetwork_styleBlind : StyleBlind isNetwork := by
  intro n t i ti cl cl2 ch ch2
  simp [isNetwork, Dom.tag, Dom.testid]

theorem isContainerSel_childBlind : ChildBlind isContainerSel := by
  intro n t i ti cl ch ch2
  simp [isContainerSel, Dom.tag, Dom.classes]

theorem nidIs_styleBlind (k : Nat) : StyleBlind (fun x => x.nid == k) := by
  intro n t i ti cl cl2 ch ch2
  simp [Dom.nid]

/- The path from the root down to the node with identity k. -/
mutual
def Dom.pathTo (k : Nat) : Dom → Option (List Dom)
  | .node n t i ti cl ch =>
      if n == k then some [.node n t i ti cl ch]
      else
        match Dom.pathToL k ch with
        | some pth => some (.node n t i ti cl ch :: pth)
        | none => none
def Dom.pathToL (k : Nat) : List Dom → Option (List Dom)
  | [] => none
  | c :: cs =>
      match Dom.pathTo k c with
      | some pth => some pth
      | none => Dom.pathToL k cs
end

/-- The proper ancestors of the node with identity `k`, closest first:
the chain `n.parentElement`, `…parentElement`, … of lines 164-165. -/
def Dom.ancestors (k : Nat) (d : Dom) : List Dom :=
  ((Dom.pathTo k d).getD []).dropLast.reverse

/-- `anchor.parentElement`. -/
def Dom.parentOf (k : Nat) (d : Dom) : Option Dom :=
  d.findFirst (fun x => x.children.any (fun c => c.nid == k))

/-- Lines 157-167: the explicit container selector, else the nearest
ancestor of the network anchor that contains the protect anchor
(`Node.contains` is the inclusive descendant check), else the body. -/
def resolveContainer (doc : Dom) : Dom :=
  match doc.findFirst isContainerSel with
  | some sc => sc
  | none =>
      match doc.findFirst isNetwork, doc.findFirst isProtect with
      | some nn, some pp =>
          match (Dom.ancestors nn.nid doc).find?
              (fun a => a.nids.contains pp.nid) with
          | some anc => anc
          | none => doc
      | _, _ => doc

/-- The icon element built by lines 83-114: an anchor with the reserved
id carrying one graphic child, with fresh identities `f` and `f + 1`.
The inline-svg variant is modelled; the `<img>` variant used when
`chrome.runtime.id` is present differs only in the tag and attributes
of the child, which no claim observes.  The `role`/`href`/`tabindex`
attributes and the inline style overrides (lines 117-155) mutate only
attributes the model does not carry. -/
def mkWrapper (f : Nat) : Dom :=
  .node f "a" ICON_ID "" ["local-unifi-drive-wrapper"]
    [.node (f + 1) "svg" "" "" ["local-unifi-drive-svg"] []]

/-- In-tree move, `parent.insertBefore(ex, anchor.nextSibling)` for a
node `ex` that is already attached (lines 339, 353).  The DOM throws
HierarchyRequestError exactly when `ex` is an inclusive ancestor of the
target parent, which is equivalent to the anchor vanishing once `ex` is
detached; `none` models the thrown error.  On success the node is
detached from its old position and inserted after the anchor. -/
def moveAfterAnchor (anchorNid : Nat) (ex : Dom) (doc : Dom) : Option Dom :=
  let d1 := doc.removeNid ex.nid
  if d1.nids.contains anchorNid then some (Dom.insertAfterNid anchorNid ex d1)
  else none

/-- In-tree move, `parent.appendChild(ex)` (lines 357, 360). -/
def moveAppendChild (parentNid : Nat) (ex : Dom) (doc : Dom) : Option Dom :=
  let d1 := doc.removeNid ex.nid
  if d1.nids.contains parentNid then some (Dom.appendChildNid parentNid ex d1)
  else none

/-- Lines 410-430 of repairExisting: find the icon's graphic child
(`existing.querySelector('img, svg')`); when it is an inline svg,
remove a legacy `rect` inside it.  (The img branch only rewrites the
`src` attribute, which the model does not carry.) -/
def scrubRect (exNid : Nat) (doc : Dom) : Dom :=
  match doc.findFirst (fun x => x.nid == exNid) with
  | none => doc
  | some ex =>
      match ex.findStrict (fun c => c.tag == "img" || c.tag == "svg") with
      | none => doc
      | some child =>
          if child.tag == "svg" then
            match child.findStrict (fun r => r.tag == "rect") with
            | some rect => doc.removeNid rect.nid
            | none => doc
          else doc

/-- repairExisting (lines 328-433).  If an icon exists and the explicit
container is present, move the icon after the protect anchor (with the
two fallback layers of lines 341-357 mirrored by the match cascade;
every layer that throws falls through, and a final throw leaves the
document unchanged via the outer catch).  Afterwards the protect
parent's classes are copied onto the icon (lines 363-367) and the
legacy rect graphic is scrubbed (lines 410-430); the computed-style
copy (lines 369-376) touches only attributes outside the model. -/
def repairExisting (doc : Dom) : Dom :=
  match doc.findFirst isIcon with
  | none => doc
  | some existing =>
      match doc.findFirst isContainerSel with
      | none => doc
      | some sc =>
          let moved :=
            match sc.findStrict isProtect with
            | some pa =>
                match moveAfterAnchor pa.nid existing doc with
                | some d => some d
                | none =>
                    let topChild :=
                      (sc.children.find?
                        (fun c => c.nids.contains pa.nid)).getD pa
                    match moveAfterAnchor topChild.nid existing doc with
                    | some d => some d
                    | none => moveAppendChild sc.nid existing doc
            | none => moveAppendChild sc.nid existing doc
          match moved with
          | none => doc
          | some d =>
              let d2 :=
                match sc.findStrict isProtect with
                | some pa =>
                    match Dom.parentOf pa.nid d with
                    | some host => d.addClassesNid existing.nid host.classes
                    | none => d
                | none => d
              scrubRect existing.nid d2

/-- removeIcon (lines 289-292): detach the element returned by
getElementById(ICON_ID), when there is one. -/
def removeIconDoc (d : Dom) : Dom :=
  match d.findFirst isIcon with
  | some el => d.removeNid el.nid
  | none => d

/-- The placement core of createIcon (lines 45-287), after the debounce
check: remove any previous icon (line 45), resolve the container, then
insert the freshly built wrapper.  In the protect branch the primary
`parent.insertBefore(wrapper, protectAnchor.nextSibling)` throws only
when the fresh wrapper is an inclusive ancestor of the parent (the nid
guard below); its catch (lines 204-219) and the network branch
(lines 223-237) insert the wrapper after the container's direct child
that contains the anchor - all their inner layers (indexOf insertion,
insertAdjacentElement, final insertBefore) coincide with that one
operation on element trees.  With neither anchor, the wrapper is
appended to the container and the final repair pass runs (line 281). -/
def createIconDoc (f : Nat) (doc0 : Dom) : Dom :=
  let doc1 := removeIconDoc doc0
  let container := resolveContainer doc1
  match container.findStrict isProtect with
  | some pa =>
      let parent := (Dom.parentOf pa.nid doc1).getD container
      if (mkWrapper f).nids.contains parent.nid then
        let topChild :=
          (container.children.find? (fun c => c.nids.contains pa.nid)).getD pa
        Dom.insertAfterNid topChild.nid
          (Dom.addClassesNid f topChild.classes (mkWrapper f)) doc1
      else
        Dom.addClassesNid f parent.classes
          (Dom.insertAfterNid pa.nid (mkWrapper f) doc1)
  | none =>
      match container.findStrict isNetwork with
      | some na =>
          let topChild :=
            (container.children.find? (fun c => c.nids.contains na.nid)).getD na
          Dom.insertAfterNid topChild.nid
            (Dom.addClassesNid f topChild.classes (mkWrapper f)) doc1
      | none =>
          repairExisting (Dom.appendChildNid container.nid (mkWrapper f) doc1)

/-! ### Settings store (chrome.storage.sync) and the options page -/

structure Storage where
  driveLink : Option String
  delayedCreate : Option Nat

/-- The options page save handler (options script, lines 14-21): one
`chrome.storage.sync.set` writing both keys. -/
def saveSettings (v : String) (delay : Nat) (_st : Storage) : Storage :=
  { driveLink := some v, delayedCreate := some delay }

/-- The value shown in the options input after its load():
`items.driveLink || ''` against the get default `{driveLink: ''}`. -/
def optionsShownLink (st : Storage) : String :=
  st.driveLink.getD ""

/-- The effective link computed by loadAndCreate (lines 314-316):
`chrome.storage.sync.get({driveLink: ''})` followed by
`items.driveLink || DEFAULT_LINK`. -/
def loadedLink (st : Storage) : String :=
  let raw := st.driveLink.getD ""
  if raw == "" then DEFAULT_LINK else raw

/-! ### The script state machine -/

structure St where
  doc : Dom
  nextNid : Nat
  lastCreate : Option Nat
  currentLink : String
  handlerLink : Option String
  storage : Storage

/-- The debounce of lines 39-42: `createIcon._last && now - _last < 500`.
`_last` is set only by runs that pass the check, so it records the most
recent effective run.  The conjunction's first operand is a JavaScript
truthiness test: `_last` is falsy when it is still `undefined` (`none`
here) and also when it holds the number 0, so a run stamped at clock 0
never debounces later calls; `0 < l` keeps that behaviour.  Over
integer clocks `now - _last < 500` is equivalent to
`now < _last + 500` (a negative difference is `< 500` as well, and so
is `t < l`). -/
def debounced (s : St) (t : Nat) : Bool :=
  match s.lastCreate with
  | some l => decide (0 < l) && decide (t < l + 500)
  | none => false

/-- An effective createIcon run: places the icon, stamps `_last`, and
captures the passed link in the click listener (line 115). -/
def createIconEff (link : Option String) (t : Nat) (s : St) : St :=
  { s with doc := createIconDoc s.nextNid s.doc, nextNid := s.nextNid + 2,
           lastCreate := some t, handlerLink := link }

/-- createIcon (lines 37-287). -/
def createIconS (link : Option String) (t : Nat) (s : St) : St :=
  if debounced s t then s else createIconEff link t s

/-- removeIcon (lines 289-292). -/
def removeIconS (s : St) : St :=
  { s with doc := removeIconDoc s.doc }

/-- loadAndCreate (lines 294-323): read the stored link, record it in
`_currentDriveLink`, and run createIcon with it.  The delayed re-create
scheduled from storage (lines 303-308) is a later timer-driven
createIcon invocation, modelled as a separate operation. -/
def loadAndCreateS (t : Nat) (s : St) : St :=
  let link := loadedLink s.storage
  createIconS (some link) t { s with currentLink := link }

/-- The MutationObserver callback (lines 440-447): when the icon is
missing from the document, re-run loadAndCreate unless the last
effective creation (`createIcon._last || 0`) is less than 1000 ms old. -/
def observeS (t : Nat) (s : St) : St :=
  match s.doc.findFirst isIcon with
  | some _ => s
  | none =>
      if t < s.lastCreate.getD 0 + 1000 then s
      else loadAndCreateS t s

/-- The persistent protect watcher poll (lines 466-477): when the
protect anchor exists and no icon does, call createIcon() with no
argument. -/
def pollS (t : Nat) (s : St) : St :=
  match s.doc.findFirst isProtect, s.doc.findFirst isIcon with
  | some _, none => createIconS none t s
  | _, _ => s

def saveS (v : String) (delay : Nat) (s : St) : St :=
  { s with storage := saveSettings v delay s.storage }

/-- The observable operations of the script: createIcon invocations
(bridge messages, the delayed timers of lines 304-307 and 536-541, the
watcher), removeIcon and repairExisting (bridge), loadAndCreate
(startup and the storage-change listener of lines 554-559), the
mutation observer, the watcher poll, and the options save. -/
inductive Op where
  | create (link : Option String) (t : Nat)
  | remove
  | repair
  | load (t : Nat)
  | observe (t : Nat)
  | poll (t : Nat)
  | save (v : String) (delay : Nat)

def applyOp : Op → St → St
  | .create link t, s => createIconS link t s
  | .remove, s => removeIconS s
  | .repair, s => { s with doc := repairExisting s.doc }
  | .load t, s => loadAndCreateS t s
  | .observe t, s => observeS t s
  | .poll t, s => pollS t s
  | .save v d, s => saveS v d s

def runOps (s : St) : List Op → St
  | [] => s
  | op :: rest => runOps (applyOp op s) rest

/-- Standing well-formedness of a document: distinct node identities,
and the root is the document body (so it matches no anchor or container
selector and does not carry the reserved icon id). -/
def WfDoc (d : Dom) : Prop :=
  d.nids.Nodup ∧ d.tag = "body" ∧ d.attrId ≠ ICON_ID

/-- Well-formed script state: well-formed document whose identities lie
below the allocation counter. -/
def WfSt (s : St) : Prop :=
  WfDoc s.doc ∧ ∀ k ∈ s.doc.nids, k < s.nextNid

/-! ### The click listener (line 115) -/

/-- JavaScript `a || b` on strings (falsy = empty). -/
def jsOr (a b : String) : String := if a == "" then b else a

structure ClickResult where
  opened : List String
  defaultPrevented : Bool

/-- The wrapper's click listener:
`e.preventDefault(); window.open(link || _currentDriveLink || DEFAULT_LINK, '_blank')`.
`captured` is the `link` argument the enclosing createIcon call closed
over (`none` when createIcon was called without an argument). -/
def iconClick (captured : Option String) (current : String) : ClickResult :=
  { opened := [jsOr (captured.getD "") (jsOr current DEFAULT_LINK)],
    defaultPrevented := true }

/-! ### Root field preservation and small facts -/

theorem Dom.tag_removeNid (k : Nat) (d : Dom) : (Dom.removeNid k d).tag = d.tag := by
  cases d with
  | node n t i ti cl ch => rw [Dom.removeNid_node]; rfl

theorem Dom.attrId_removeNid (k : Nat) (d : Dom) :
    (Dom.removeNid k d).attrId = d.attrId := by
  cases d with
  | node n t i ti cl ch => rw [Dom.removeNid_node]; rfl

theorem Dom.tag_insertAfter (k : Nat) (w d : Dom) :
    (Dom.insertAfterNid k w d).tag = d.tag := by
  cases d with
  | node n t i ti cl ch => rw [Dom.insertAfterNid_node]; rfl

theorem Dom.attrId_insertAfter (k : Nat) (w d : Dom) :
    (Dom.insertAfterNid k w d).attrId = d.attrId := by
  cases d with
  | node n t i ti cl ch => rw [Dom.insertAfterNid_node]; rfl

theorem Dom.tag_appendChild (k : Nat) (w d : Dom) :
    (Dom.appendChildNid k w d).tag = d.tag := by
  cases d with
  | node n t i ti cl ch => rw [Dom.appendChildNid_node]; split <;> rfl

theorem Dom.attrId_appendChild (k : Nat) (w d : Dom) :
    (Dom.appendChildNid k w d).attrId = d.attrId := by
  cases d with
  | node n t i ti cl ch => rw [Dom.appendChildNid_node]; split <;> rfl

theorem Dom.tag_addClasses (k : Nat) (extra : List String) (d : Dom) :
    (Dom.addClassesNid k extra d).tag = d.tag := by
  cases d with
  | node n t i ti cl ch => rw [Dom.addClassesNid_node]; rfl

theorem Dom.attrId_addClasses (k : Nat) (extra : List String) (d : Dom) :
    (Dom.addClassesNid k extra d).attrId = d.attrId := by
  cases d with
  | node n t i ti cl ch => rw [Dom.addClassesNid_node]; rfl

theorem Dom.mem_forest_of_ne {m : Nat} {d : Dom} (h : m ∈ d.nids)
    (hne : m ≠ d.nid) : m ∈ Dom.nidsL d.children := by
  cases d with
  | node n t i ti cl ch =>
      simp only [Dom.nids_node, List.mem_cons] at h
      simp only [Dom.nid] at hne
      rcases h with h | h
      · exact absurd h hne
      · simpa [Dom.children] using h

theorem Dom.nidsL_subset_nids (d : Dom) : Dom.nidsL d.children ⊆ d.nids := by
  cases d with
  | node n t i ti cl ch =>
      intro m hm
      simp only [Dom.nids_node, List.mem_cons]
      exact Or.inr (by simpa [Dom.children] using hm)

/-! ### pathTo and resolveContainer occurrence facts -/

theorem Dom.pathTo_node (k n : Nat) (t i ti : String) (cl : List String)
    (ch : List Dom) :
    Dom.pathTo k (.node n t i ti cl ch) =
      (if n == k then some [Dom.node n t i ti cl ch]
       else
        match Dom.pathToL k ch with
        | some pth => some (Dom.node n t i ti cl ch :: pth)
        | none => none) := by
  simp [Dom.pathTo]

@[simp] theorem Dom.pathToL_nil (k : Nat) : Dom.pathToL k [] = none := by
  simp [Dom.pathToL]

theorem Dom.pathToL_cons (k : Nat) (c : Dom) (cs : List Dom) :
    Dom.pathToL k (c :: cs) =
      (match Dom.pathTo k c with
       | some pth => some pth
       | none => Dom.pathToL k cs) := by
  simp [Dom.pathToL]

mutual
theorem Dom.pathTo_sub {k : Nat} {pth : List Dom} {a : Dom} :
    ∀ {d : Dom}, Dom.pathTo k d = some pth → a ∈ pth → SubNode a d
  | .node n t i ti cl ch => by
      intro h ha
      rw [Dom.pathTo_node] at h
      split at h
      · cases h
        simp only [List.mem_singleton] at ha
        exact ha ▸ SubNode.refl _
      · cases hl : Dom.pathToL k ch with
        | some pth2 =>
            rw [hl] at h
            cases h
            rcases List.mem_cons.mp ha with h1 | h1
            · exact h1 ▸ SubNode.refl _
            · obtain ⟨c, hc, hsub⟩ := Dom.pathToL_sub hl h1
              exact SubNode.step hc hsub
        | none => rw [hl] at h; cases h
theorem Dom.pathToL_sub {k : Nat} {pth : List Dom} {a : Dom} :
    ∀ {l : List Dom}, Dom.pathToL k l = some pth → a ∈ pth →
      ∃ c ∈ l, SubNode a c
  | [] => by simp
  | c :: cs => by
      intro h ha
      rw [Dom.pathToL_cons] at h
      cases hc : Dom.pathTo k c with
      | some pth2 =>
          rw [hc] at h
          cases h
          exact ⟨c, by simp, Dom.pathTo_sub hc ha⟩
      | none =>
          rw [hc] at h
          obtain ⟨c2, hc2, hsub⟩ := Dom.pathToL_sub h ha
          exact ⟨c2, by simp [hc2], hsub⟩
end

theorem Dom.ancestors_sub {k : Nat} {d a : Dom} (h : a ∈ Dom.ancestors k d) :
    SubNode a d := by
  unfold Dom.ancestors at h
  rw [List.mem_reverse] at h
  cases hp : Dom.pathTo k d with
  | none => rw [hp] at h; simp at h
  | some pth =>
      rw [hp] at h
      simp only [Option.getD_some] at h
      exact Dom.pathTo_sub hp (List.dropLast_subset pth h)

theorem resolveContainer_sub (doc : Dom) : SubNode (resolveContainer doc) doc := by
  unfold resolveContainer
  cases h1 : doc.findFirst isContainerSel with
  | some sc => exact Dom.findFirst_sub h1
  | none =>
      cases h2 : doc.findFirst isNetwork with
      | none => exact SubNode.refl _
      | some nn =>
          cases h3 : doc.findFirst isProtect with
          | none => exact SubNode.refl _
          | some pp =>
              cases h4 : (Dom.ancestors nn.nid doc).find?
                  (fun a => a.nids.contains pp.nid) with
              | none =>
                  simp only [h4]
                  exact SubNode.refl _
              | some anc =>
                  simp only [h4]
                  exact Dom.ancestors_sub (List.mem_of_find?_eq_some h4)

/-! ### Facts about the fresh wrapper -/

theorem mkWrapper_nids (f : Nat) : (mkWrapper f).nids = [f, f + 1] := by
  simp [mkWrapper]

theorem mkWrapper_nodup (f : Nat) : (mkWrapper f).nids.Nodup := by
  rw [mkWrapper_nids]
  simp

theorem mkWrapper_isIcon (f : Nat) : isIcon (mkWrapper f) = true := by
  simp [mkWrapper, isIcon, Dom.attrId]

theorem mkWrapper_countIcon (f : Nat) : Dom.countP isIcon (mkWrapper f) = 1 := by
  simp [mkWrapper, Dom.countP_node, Dom.countPL_cons, Dom.countPL_nil,
    isIcon, Dom.attrId, ICON_ID]

theorem mkWrapper_countProtect (f : Nat) :
    Dom.countP isProtect (mkWrapper f) = 0 := by
  simp [mkWrapper, Dom.countP_node, Dom.countPL_cons, Dom.countPL_nil,
    isProtect, Dom.tag, Dom.testid]

theorem mkWrapper_countNetwork (f : Nat) :
    Dom.countP isNetwork (mkWrapper f) = 0 := by
  simp [mkWrapper, Dom.countP_node, Dom.countPL_cons, Dom.countPL_nil,
    isNetwork, Dom.tag, Dom.testid]

theorem mkWrapper_countContainer (f : Nat) :
    Dom.countP isContainerSel (mkWrapper f) = 0 := by
  simp [mkWrapper, Dom.countP_node, Dom.countPL_cons, Dom.countPL_nil,
    isContainerSel, Dom.tag]

theorem mkWrapper_count_nid (f m : Nat) (hm : m ∉ [f, f + 1]) :
    Dom.countP (fun x => x.nid == m) (mkWrapper f) = 0 := by
  simp only [List.mem_cons, not_or, List.mem_singleton] at hm
  simp [mkWrapper, Dom.countP_node, Dom.countPL_cons, Dom.countPL_nil,
    Dom.nid, Ne.symm hm.1, Ne.symm hm.2.1]

/- Inserting into a document with no match: the first match afterwards
comes from the inserted node, provided the anchor exists as a child. -/
mutual
theorem Dom.findFirst_insert_fresh {p : Dom → Bool} (hp : ChildBlind p)
    {w : Dom} (k : Nat) :
    ∀ {d : Dom}, Dom.countP p d = 0 →
      Dom.findFirst p (Dom.insertAfterNid k w d)
        = (if k ∈ Dom.nidsL d.children then Dom.findFirst p w else none)
  | .node n t i ti cl ch => by
      intro h0
      rw [Dom.countP_node] at h0
      have hroot : p (.node n t i ti cl ch) = false := by
        cases hp2 : p (.node n t i ti cl ch) with
        | false => rfl
        | true => rw [hp2] at h0; simp at h0
      have hch0 : Dom.countPL p ch = 0 := by
        rw [hroot] at h0; simpa using h0
      rw [Dom.insertAfterNid_node, Dom.findFirst_node,
        hp n t i ti cl (Dom.insertAfterNidL k w ch) ch, hroot]
      simp only [Bool.false_eq_true, if_false, Dom.children]
      exact Dom.findFirstL_insert_fresh hp k hch0
theorem Dom.findFirstL_insert_fresh {p : Dom → Bool} (hp : ChildBlind p)
    {w : Dom} (k : Nat) :
    ∀ {l : List Dom}, Dom.countPL p l = 0 →
      Dom.findFirstL p (Dom.insertAfterNidL k w l)
        = (if k ∈ Dom.nidsL l then Dom.findFirst p w else none)
  | [] => by intro _; simp
  | c :: cs => by
      intro h0
      simp only [Dom.countPL_cons, Nat.add_eq_zero] at h0
      have hcnone : Dom.findFirst p c = none :=
        Dom.findFirst_none_of_countP_zero h0.1
      have ihc := Dom.findFirst_insert_fresh (w := w) hp k (d := c) h0.1
      have ihcs := Dom.findFirstL_insert_fresh (w := w) hp k (l := cs) h0.2
      rw [Dom.insertAfterNidL_cons]
      by_cases hk : c.nid == k
      · rw [if_pos hk, Dom.findFirstL_cons, ihc]
        have hkm : k ∈ Dom.nidsL (c :: cs) := by
          simp only [Dom.nidsL_cons, List.mem_append]
          exact Or.inl (beq_iff_eq.mp hk ▸ Dom.nid_mem_self c)
        rw [if_pos hkm]
        by_cases hkc : k ∈ Dom.nidsL c.children
        · rw [if_pos hkc]
          cases hw : Dom.findFirst p w with
          | some v => rfl
          | none =>
              show Dom.findFirstL p (w :: Dom.insertAfterNidL k w cs) = none
              rw [Dom.findFirstL_cons, hw, ihcs, hw]
              simp
        · rw [if_neg hkc]
          show Dom.findFirstL p (w :: Dom.insertAfterNidL k w cs)
            = Dom.findFirst p w
          rw [Dom.findFirstL_cons]
          cases hw : Dom.findFirst p w with
          | some v => rfl
          | none =>
              rw [ihcs, hw]
              simp
      · rw [if_neg hk, Dom.findFirstL_cons, ihc]
        have hiff : (k ∈ c.nids) ↔ (k ∈ Dom.nidsL c.children) := by
          constructor
          · intro h
            exact Dom.mem_forest_of_ne h
              (fun he => hk (by simp [beq_iff_eq, he.symm]))
          · exact fun h => Dom.nidsL_subset_nids c h
        by_cases hkc : k ∈ Dom.nidsL c.children
        · rw [if_pos hkc]
          have hkm : k ∈ Dom.nidsL (c :: cs) := by
            simp only [Dom.nidsL_cons, List.mem_append]
            exact Or.inl (hiff.mpr hkc)
          rw [if_pos hkm]
          cases hw : Dom.findFirst p w with
          | some v => rfl
          | none =>
              rw [ihcs, hw]
              simp
        · rw [if_neg hkc]
          rw [ihcs]
          have hiff2 : (k ∈ Dom.nidsL cs) ↔ (k ∈ Dom.nidsL (c :: cs)) := by
            simp only [Dom.nidsL_cons, List.mem_append]
            constructor
            · exact Or.inr
            · intro h
              rcases h with h | h
              · exact absurd (hiff.mp h) hkc
              · exact h
          exact if_congr hiff2 rfl rfl
end

/- Detaching the freshly appended node undoes the append. -/
mutual
theorem Dom.removeNid_appendChild_cancel {w : Dom} (hw : w.nid ∉ Dom.nidsL w.children)
    (k : Nat) :
    ∀ {d : Dom}, w.nid ∉ d.nids →
      Dom.removeNid w.nid (Dom.appendChildNid k w d) = d
  | .node n t i ti cl ch => by
      intro hnm
      simp only [Dom.nids_node, List.mem_cons, not_or] at hnm
      rw [Dom.appendChildNid_node]
      by_cases hk : n == k
      · rw [if_pos hk, Dom.removeNid_node]
        have : Dom.removeNidL w.nid (Dom.appendChildNidL k w ch ++ [w]) =
            Dom.removeNidL w.nid (Dom.appendChildNidL k w ch) := by
          induction Dom.appendChildNidL k w ch with
          | nil =>
              rw [List.nil_append, Dom.removeNidL_cons, if_pos (by simp)]
          | cons a as ih =>
              rw [List.cons_append, Dom.removeNidL_cons, Dom.removeNidL_cons]
              by_cases ha : a.nid == w.nid
              · rw [if_pos ha, if_pos ha]; exact ih
              · rw [if_neg ha, if_neg ha, ih]
        rw [this, Dom.removeNidL_appendChild_cancel hw k hnm.2]
      · rw [if_neg hk, Dom.removeNid_node,
          Dom.removeNidL_appendChild_cancel hw k hnm.2]
theorem Dom.removeNidL_appendChild_cancel {w : Dom} (hw : w.nid ∉ Dom.nidsL w.children)
    (k : Nat) :
    ∀ {l : List Dom}, w.nid ∉ Dom.nidsL l →
      Dom.removeNidL w.nid (Dom.appendChildNidL k w l) = l
  | [] => by intro _; simp
  | c :: cs => by
      intro hnm
      simp only [Dom.nidsL_cons, List.mem_append, not_or] at hnm
      rw [Dom.appendChildNidL_cons, Dom.removeNidL_cons,
        if_neg (by
          rw [Dom.nid_appendChild]
          simp only [beq_iff_eq]
          exact fun he => hnm.1 (he ▸ Dom.nid_mem_self c)),
        Dom.removeNid_appendChild_cancel hw k hnm.1,
        Dom.removeNidL_appendChild_cancel hw k hnm.2]
end

/-! ### Identity-search facts -/

theorem natList_contains_iff (l : List Nat) (a : Nat) :
    l.contains a = true ↔ a ∈ l := by simp

mutual
theorem Dom.countP_nid_eq_count (m : Nat) :
    ∀ d : Dom, Dom.countP (fun x => x.nid == m) d = d.nids.count m
  | .node n t i ti cl ch => by
      rw [Dom.countP_node, Dom.countPL_nid_eq_count m ch]
      simp only [Dom.nids_node, List.count_cons, Dom.nid]
      by_cases h : n = m
      · simp [h]
        omega
      · have h2 : ¬ m = n := fun hc => h hc.symm
        simp [h, h2]
theorem Dom.countPL_nid_eq_count (m : Nat) :
    ∀ l : List Dom, Dom.countPL (fun x => x.nid == m) l = (Dom.nidsL l).count m
  | [] => by simp
  | c :: cs => by
      simp only [Dom.countPL_cons, Dom.nidsL_cons, List.count_append,
        Dom.countP_nid_eq_count m c, Dom.countPL_nid_eq_count m cs]
end

theorem Dom.nid_mem_of_mem {c : Dom} {l : List Dom} (h : c ∈ l) :
    c.nid ∈ Dom.nidsL l :=
  SubNode.nids_subset_of_mem h (fun _ hm => hm) (Dom.nid_mem_self c)

/- Under distinct identities, searching for the identity of an occurring
node finds exactly that node. -/
mutual
theorem Dom.findNid_of_sub {x : Dom} :
    ∀ {d : Dom}, d.nids.Nodup → SubNode x d →
      Dom.findFirst (fun y => y.nid == x.nid) d = some x
  | .node n t i ti cl ch => by
      intro hnd hsub
      rw [Dom.findFirst_node]
      split
      · rename_i hcond
        have hn : n = x.nid := by simpa [Dom.nid] using hcond
        have hx : x = Dom.node n t i ti cl ch :=
          SubNode.eq_of_nid_eq hnd hsub (by simp [Dom.nid, hn])
        rw [hx]
      · rename_i hcond
        cases hsub with
        | refl => simp [Dom.nid] at hcond
        | step hc hx =>
            simp only [Dom.nids_node, List.nodup_cons] at hnd
            exact Dom.findNidL_of_sub hnd.2 hc hx
theorem Dom.findNidL_of_sub {x c0 : Dom} :
    ∀ {l : List Dom}, (Dom.nidsL l).Nodup → c0 ∈ l → SubNode x c0 →
      Dom.findFirstL (fun y => y.nid == x.nid) l = some x
  | [] => by intro _ h; cases h
  | c :: cs => by
      intro hnd hmem hx
      simp only [Dom.nidsL_cons, List.nodup_append] at hnd
      rw [Dom.findFirstL_cons]
      rcases List.mem_cons.mp hmem with h | h
      · rw [h] at hx
        rw [Dom.findNid_of_sub hnd.1 hx]
      · have hxin : x.nid ∈ Dom.nidsL cs :=
          SubNode.nids_subset_of_mem h hx.nids_subset (Dom.nid_mem_self x)
        have hnotc : x.nid ∉ c.nids := fun hm => hnd.2.2 hm hxin
        have hcnone : Dom.findFirst (fun y => y.nid == x.nid) c = none := by
          apply Dom.findFirst_none_of_countP_zero
          rw [Dom.countP_nid_eq_count]
          exact List.count_eq_zero.mpr hnotc
        rw [hcnone]
        exact Dom.findNidL_of_sub hnd.2.1 h hx
end

theorem Dom.countP_ge_one_of_pred {p : Dom → Bool} {x : Dom}
    (h : p x = true) : 1 ≤ Dom.countP p x := by
  cases x with
  | node n t i ti cl ch =>
      rw [Dom.countP_node, if_pos h]
      omega

/-! ### removeIcon facts -/

theorem removeIconDoc_nids_sublist (d : Dom) :
    List.Sublist (removeIconDoc d).nids d.nids := by
  unfold removeIconDoc
  cases h : d.findFirst isIcon with
  | none => exact List.Sublist.refl _
  | some el => exact Dom.nids_remove_sublist el.nid d

theorem removeIconDoc_wfdoc {d : Dom} (hwf : WfDoc d) :
    WfDoc (removeIconDoc d) := by
  refine ⟨(removeIconDoc_nids_sublist d).nodup hwf.1, ?_, ?_⟩
  · unfold removeIconDoc
    cases h : d.findFirst isIcon with
    | none => exact hwf.2.1
    | some el => rw [Dom.tag_removeNid]; exact hwf.2.1
  · unfold removeIconDoc
    cases h : d.findFirst isIcon with
    | none => exact hwf.2.2
    | some el => rw [Dom.attrId_removeNid]; exact hwf.2.2

theorem isIcon_root_false {d : Dom} (hwf : WfDoc d) : isIcon d = false := by
  unfold isIcon
  simp only [beq_eq_false_iff_ne, ne_eq]
  exact hwf.2.2

theorem removeIconDoc_count {d : Dom} (hwf : WfDoc d)
    (hle : countIcon d ≤ 1) : countIcon (removeIconDoc d) = 0 := by
  unfold removeIconDoc countIcon
  cases h : d.findFirst isIcon with
  | none =>
      show Dom.countP isIcon d = 0
      unfold countIcon at hle
      have := Dom.findFirst_none_countP h
      omega
  | some el =>
      have hpred : isIcon el = true := Dom.findFirst_pred h
      have hsub : SubNode el d := Dom.findFirst_sub h
      have hne : el.nid ≠ d.nid := by
        intro he
        have : el = d := SubNode.eq_of_nid_eq hwf.1 hsub he
        rw [this, isIcon_root_false hwf] at hpred
        cases hpred
      have hsingle : Dom.removedSubs el.nid d = [el] :=
        Dom.removedSubs_single hwf.1 hsub hne
      have heq := Dom.countP_remove isIcon_styleBlind.childBlind el.nid d
      rw [hsingle] at heq
      simp only [List.map_cons, List.map_nil, List.sum_cons, List.sum_nil] at heq
      have hel := Dom.countP_ge_one_of_pred hpred
      unfold countIcon at hle
      show Dom.countP isIcon (Dom.removeNid el.nid d) = 0
      omega

theorem removeIconDoc_id {d : Dom} (h0 : countIcon d = 0) :
    removeIconDoc d = d := by
  unfold removeIconDoc
  cases h : d.findFirst isIcon with
  | none => rfl
  | some el =>
      have := Dom.countP_pos_of_findFirst h
      unfold countIcon at h0
      omega

/-! ### More wrapper computations -/

theorem mkWrapper_findIcon (f : Nat) :
    Dom.findFirst isIcon (mkWrapper f) = some (mkWrapper f) := by
  rw [mkWrapper, Dom.findFirst_node, if_pos]
  exact mkWrapper_isIcon f

theorem mkWrapper_findNid (f : Nat) :
    Dom.findFirst (fun y => y.nid == f) (mkWrapper f) = some (mkWrapper f) := by
  rw [mkWrapper, Dom.findFirst_node, if_pos]
  simp [Dom.nid]

theorem mkWrapper_imgsvg (f : Nat) :
    (mkWrapper f).findStrict (fun c => c.tag == "img" || c.tag == "svg")
      = some (.node (f + 1) "svg" "" "" ["local-unifi-drive-svg"] []) := by
  rw [mkWrapper]
  unfold Dom.findStrict
  simp only [Dom.children]
  rw [Dom.findFirstL_cons, Dom.findFirst_node, if_pos]
  simp [Dom.tag]

/-! ### Placement flow lemmas -/

theorem count_pair (f m : Nat) :
    ([f, f + 1] : List Nat).count m
      = (if m = f then 1 else 0) + (if m = f + 1 then 1 else 0) := by
  by_cases h1 : m = f
  · have h2 : ¬ m = f + 1 := by omega
    simp [h1, h2, List.count_cons]
  · by_cases h2 : m = f + 1
    · simp [h1, h2, List.count_cons]
    · simp [h1, h2, List.count_cons]

theorem insert_fresh_wrapper_spec {d1 : Dom} {a f : Nat} {w2 : Dom}
    (hwf : WfDoc d1) (h0 : countIcon d1 = 0) (hb : ∀ k ∈ d1.nids, k < f)
    (ha : a ∈ Dom.nidsL d1.children)
    (hwn : w2.nids = [f, f + 1]) (hwc : Dom.countP isIcon w2 = 1) :
    countIcon (Dom.insertAfterNid a w2 d1) = 1 ∧
      WfDoc (Dom.insertAfterNid a w2 d1) ∧
      ∀ k ∈ (Dom.insertAfterNid a w2 d1).nids, k < f + 2 := by
  have hndch : (Dom.nidsL d1.children).Nodup := by
    cases d1 with
    | node n t i ti cl ch =>
        have := hwf.1
        simp only [Dom.nids_node, List.nodup_cons, Dom.children] at this ⊢
        exact this.2
  have hcA : (Dom.nidsL d1.children).count a = 1 :=
    List.count_eq_one_of_mem hndch ha
  refine ⟨?_, ⟨?_, ?_, ?_⟩, ?_⟩
  · unfold countIcon at h0 ⊢
    rw [Dom.countP_insertAfter isIcon_styleBlind.childBlind a w2 d1, h0, hcA,
      hwc]
  · rw [List.nodup_iff_count_le_one]
    intro m
    rw [Dom.count_nids_insertAfter m a w2 d1, hwn, count_pair f m, hcA]
    have hd1 : d1.nids.count m ≤ 1 := List.nodup_iff_count_le_one.mp hwf.1 m
    by_cases hm1 : m = f
    · have hd0 : d1.nids.count m = 0 := by
        rw [List.count_eq_zero]
        intro hmem
        have := hb m hmem
        omega
      rw [if_pos hm1, if_neg (by omega), hd0]
    · by_cases hm2 : m = f + 1
      · have hd0 : d1.nids.count m = 0 := by
          rw [List.count_eq_zero]
          intro hmem
          have := hb m hmem
          omega
        rw [if_neg hm1, if_pos hm2, hd0]
      · rw [if_neg hm1, if_neg hm2]
        omega
  · rw [Dom.tag_insertAfter]; exact hwf.2.1
  · rw [Dom.attrId_insertAfter]; exact hwf.2.2
  · intro k hk
    by_contra hc
    push_neg at hc
    have hd0 : d1.nids.count k = 0 := by
      rw [List.count_eq_zero]
      intro hmem
      have := hb k hmem
      omega
    have hpos : 0 < (Dom.insertAfterNid a w2 d1).nids.count k :=
      List.count_pos_iff.mpr hk
    rw [Dom.count_nids_insertAfter k a w2 d1, hwn, count_pair f k, hcA, hd0,
      if_neg (by omega), if_neg (by omega)] at hpos
    omega

theorem append_fresh_wrapper_spec {d1 : Dom} {a f : Nat} {w2 : Dom}
    (hwf : WfDoc d1) (h0 : countIcon d1 = 0) (hb : ∀ k ∈ d1.nids, k < f)
    (ha : a ∈ d1.nids)
    (hwn : w2.nids = [f, f + 1]) (hwc : Dom.countP isIcon w2 = 1) :
    countIcon (Dom.appendChildNid a w2 d1) = 1 ∧
      WfDoc (Dom.appendChildNid a w2 d1) ∧
      ∀ k ∈ (Dom.appendChildNid a w2 d1).nids, k < f + 2 := by
  have hcA : d1.nids.count a = 1 := List.count_eq_one_of_mem hwf.1 ha
  refine ⟨?_, ⟨?_, ?_, ?_⟩, ?_⟩
  · unfold countIcon at h0 ⊢
    rw [Dom.countP_append isIcon_styleBlind.childBlind a w2 d1, h0, hcA, hwc]
  · rw [List.nodup_iff_count_le_one]
    intro m
    rw [Dom.count_nids_append m a w2 d1, hwn, count_pair f m, hcA]
    have hd1 : d1.nids.count m ≤ 1 := List.nodup_iff_count_le_one.mp hwf.1 m
    by_cases hm1 : m = f
    · have hd0 : d1.nids.count m = 0 := by
        rw [List.count_eq_zero]
        intro hmem
        have := hb m hmem
        omega
      rw [if_pos hm1, if_neg (by omega), hd0]
    · by_cases hm2 : m = f + 1
      · have hd0 : d1.nids.count m = 0 := by
          rw [List.count_eq_zero]
          intro hmem
          have := hb m hmem
          omega
        rw [if_neg hm1, if_pos hm2, hd0]
      · rw [if_neg hm1, if_neg hm2]
        omega
  · rw [Dom.tag_appendChild]; exact hwf.2.1
  · rw [Dom.attrId_appendChild]; exact hwf.2.2
  · intro k hk
    by_contra hc
    push_neg at hc
    have hd0 : d1.nids.count k = 0 := by
      rw [List.count_eq_zero]
      intro hmem
      have := hb k hmem
      omega
    have hpos : 0 < (Dom.appendChildNid a w2 d1).nids.count k :=
      List.count_pos_iff.mpr hk
    rw [Dom.count_nids_append k a w2 d1, hwn, count_pair f k, hcA, hd0,
      if_neg (by omega), if_neg (by omega)] at hpos
    omega

theorem mkWrapper_nid (f : Nat) : (mkWrapper f).nid = f := by
  simp [mkWrapper, Dom.nid]

theorem Dom.findStrict_append_self {p : Dom → Bool}
    {w d : Dom} (hnd : d.nids.Nodup) (hw : Dom.countP p w = 0)
    (h : d.findStrict p = none) :
    (Dom.appendChildNid d.nid w d).findStrict p = none := by
  cases d with
  | node n t i ti cl ch =>
      rw [Dom.appendChildNid_node, if_pos (by simp [Dom.nid])]
      unfold Dom.findStrict at h ⊢
      simp only [Dom.children] at h ⊢
      rw [Dom.appendChildNidL_of_not_mem (by
        simp only [Dom.nids_node, List.nodup_cons] at hnd
        simpa [Dom.nid] using hnd.1)]
      rw [Dom.findFirstL_append, h, Dom.findFirstL_cons,
        Dom.findFirst_none_of_countP_zero hw]
      simp

theorem mkWrapper_nid_notin_children (f : Nat) :
    (mkWrapper f).nid ∉ Dom.nidsL (mkWrapper f).children := by
  rw [mkWrapper_nid]
  have h : Dom.nidsL (mkWrapper f).children = [f + 1] := by
    simp [mkWrapper, Dom.children]
  rw [h]
  simp only [List.mem_singleton]
  omega

theorem repair_after_fallback {d1 : Dom} {f : Nat} (hwf : WfDoc d1)
    (h0 : countIcon d1 = 0) (hb : ∀ k ∈ d1.nids, k < f)
    (hpnone : (resolveContainer d1).findStrict isProtect = none) :
    repairExisting
        (Dom.appendChildNid (resolveContainer d1).nid (mkWrapper f) d1)
      = Dom.appendChildNid (resolveContainer d1).nid (mkWrapper f) d1 := by
  have hsubc : SubNode (resolveContainer d1) d1 := resolveContainer_sub d1
  have hcmem : (resolveContainer d1).nid ∈ d1.nids := hsubc.nid_mem
  have hfnotin : f ∉ d1.nids := fun hm => by have := hb f hm; omega
  have hwnin : (mkWrapper f).nid ∉ d1.nids := by rw [mkWrapper_nid]; exact hfnotin
  have hex : (Dom.appendChildNid (resolveContainer d1).nid (mkWrapper f) d1).findFirst
      isIcon = some (mkWrapper f) := by
    rw [Dom.findFirst_append_fresh isIcon_styleBlind.childBlind _ h0,
      if_pos hcmem, mkWrapper_findIcon]
  have hcancel : Dom.removeNid (mkWrapper f).nid
      (Dom.appendChildNid (resolveContainer d1).nid (mkWrapper f) d1) = d1 :=
    Dom.removeNid_appendChild_cancel (mkWrapper_nid_notin_children f) _ hwnin
  have hcount0 : Dom.countP (fun x => x.nid == f) d1 = 0 := by
    rw [Dom.countP_nid_eq_count]
    exact List.count_eq_zero.mpr hfnotin
  have hscrub : scrubRect (mkWrapper f).nid
      (Dom.appendChildNid (resolveContainer d1).nid (mkWrapper f) d1)
      = Dom.appendChildNid (resolveContainer d1).nid (mkWrapper f) d1 := by
    unfold scrubRect
    rw [mkWrapper_nid]
    rw [Dom.findFirst_append_fresh (nidIs_styleBlind f).childBlind _ hcount0,
      if_pos hcmem, mkWrapper_findNid]
    simp [mkWrapper, Dom.findStrict, Dom.tag, Dom.children,
      Dom.findFirstL_cons, Dom.findFirst_node]
  cases hsc1 : d1.findFirst isContainerSel with
  | none =>
      have hscnone : (Dom.appendChildNid (resolveContainer d1).nid
          (mkWrapper f) d1).findFirst isContainerSel = none := by
        rw [Dom.findFirst_append isContainerSel_childBlind
          (mkWrapper_countContainer f) _ d1, hsc1, Option.map_none']
      unfold repairExisting
      rw [hex, hscnone]
  | some sc0 =>
      have hconteq : resolveContainer d1 = sc0 := by
        unfold resolveContainer
        rw [hsc1]
      have hsubsc : SubNode sc0 d1 := Dom.findFirst_sub hsc1
      have hndsc : sc0.nids.Nodup := hsubsc.nodup hwf.1
      have hsc2 : (Dom.appendChildNid (resolveContainer d1).nid
          (mkWrapper f) d1).findFirst isContainerSel
          = some (Dom.appendChildNid sc0.nid (mkWrapper f) sc0) := by
        rw [hconteq, Dom.findFirst_append isContainerSel_childBlind
          (mkWrapper_countContainer f) _ d1, hsc1, Option.map_some']
      have hprot2 : (Dom.appendChildNid sc0.nid (mkWrapper f) sc0).findStrict
          isProtect = none := by
        apply Dom.findStrict_append_self hndsc (mkWrapper_countProtect f)
        rw [← hconteq]
        exact hpnone
      have hmove : moveAppendChild sc0.nid (mkWrapper f)
          (Dom.appendChildNid (resolveContainer d1).nid (mkWrapper f) d1)
          = some (Dom.appendChildNid (resolveContainer d1).nid (mkWrapper f) d1) := by
        unfold moveAppendChild
        rw [hcancel, if_pos ((natList_contains_iff _ _).mpr
          (hconteq ▸ hcmem)), hconteq]
      unfold repairExisting
      rw [hex, hsc2]
      simp only [Dom.nid_appendChild, hprot2, hmove, hscrub]

theorem wrapper_guard_false {f m : Nat} (hm : m < f) :
    ((mkWrapper f).nids.contains m) = false := by
  cases hc : ((mkWrapper f).nids.contains m) with
  | false => rfl
  | true =>
      have hmem := (natList_contains_iff _ _).mp hc
      rw [mkWrapper_nids] at hmem
      simp at hmem
      omega

/- Branch equations for createIconDoc. -/
theorem createIconDoc_eq_protect {f : Nat} {d pa : Dom}
    (hpa : (resolveContainer (removeIconDoc d)).findStrict isProtect = some pa)
    (hguard : ((mkWrapper f).nids.contains
      ((Dom.parentOf pa.nid (removeIconDoc d)).getD
        (resolveContainer (removeIconDoc d))).nid) = false) :
    createIconDoc f d
      = Dom.addClassesNid f
          ((Dom.parentOf pa.nid (removeIconDoc d)).getD
            (resolveContainer (removeIconDoc d))).classes
          (Dom.insertAfterNid pa.nid (mkWrapper f) (removeIconDoc d)) := by
  simp only [createIconDoc]
  rw [hpa]
  simp only [hguard, Bool.false_eq_true, if_false]

theorem createIconDoc_eq_network {f : Nat} {d na : Dom}
    (hpa : (resolveContainer (removeIconDoc d)).findStrict isProtect = none)
    (hna : (resolveContainer (removeIconDoc d)).findStrict isNetwork = some na) :
    createIconDoc f d
      = Dom.insertAfterNid
          (((resolveContainer (removeIconDoc d)).children.find?
            (fun c => c.nids.contains na.nid)).getD na).nid
          (Dom.addClassesNid f
            (((resolveContainer (removeIconDoc d)).children.find?
              (fun c => c.nids.contains na.nid)).getD na).classes
            (mkWrapper f))
          (removeIconDoc d) := by
  simp only [createIconDoc]
  rw [hpa, hna]

theorem createIconDoc_eq_fallback {f : Nat} {d : Dom}
    (hpa : (resolveContainer (removeIconDoc d)).findStrict isProtect = none)
    (hna : (resolveContainer (removeIconDoc d)).findStrict isNetwork = none) :
    createIconDoc f d
      = repairExisting
          (Dom.appendChildNid (resolveContainer (removeIconDoc d)).nid
            (mkWrapper f) (removeIconDoc d)) := by
  simp only [createIconDoc]
  rw [hpa, hna]

theorem addClasses_preserves_spec {j : Nat} {cls : List String} {x : Dom}
    {f : Nat}
    (h : countIcon x = 1 ∧ WfDoc x ∧ ∀ k ∈ x.nids, k < f + 2) :
    countIcon (Dom.addClassesNid j cls x) = 1 ∧
      WfDoc (Dom.addClassesNid j cls x) ∧
      ∀ k ∈ (Dom.addClassesNid j cls x).nids, k < f + 2 := by
  obtain ⟨h1, ⟨hn, ht, ha⟩, hb⟩ := h
  refine ⟨?_, ⟨?_, ?_, ?_⟩, ?_⟩
  · unfold countIcon at h1 ⊢
    rw [Dom.countP_addClasses isIcon_styleBlind]
    exact h1
  · rw [Dom.nids_addClasses]; exact hn
  · rw [Dom.tag_addClasses]; exact ht
  · rw [Dom.attrId_addClasses]; exact ha
  · intro k hk
    rw [Dom.nids_addClasses] at hk
    exact hb k hk

/-- The central placement lemma: every effective createIcon run on a
well-formed document with at most one icon leaves exactly one icon and
a well-formed document whose identities lie below the bumped counter. -/
theorem createIconDoc_spec {f : Nat} {d : Dom} (hwf : WfDoc d)
    (hle : countIcon d ≤ 1) (hf : ∀ k ∈ d.nids, k < f) :
    countIcon (createIconDoc f d) = 1 ∧ WfDoc (createIconDoc f d) ∧
      ∀ k ∈ (createIconDoc f d).nids, k < f + 2 := by
  have hwf1 : WfDoc (removeIconDoc d) := removeIconDoc_wfdoc hwf
  have h01 : countIcon (removeIconDoc d) = 0 := removeIconDoc_count hwf hle
  have hb1 : ∀ k ∈ (removeIconDoc d).nids, k < f :=
    fun k hk => hf k ((removeIconDoc_nids_sublist d).subset hk)
  have hsubc : SubNode (resolveContainer (removeIconDoc d)) (removeIconDoc d) :=
    resolveContainer_sub (removeIconDoc d)
  have hanch : ∀ m : Nat,
      m ∈ Dom.nidsL (resolveContainer (removeIconDoc d)).children →
      m ∈ Dom.nidsL (removeIconDoc d).children := by
    intro m hx
    rcases hsubc.eq_or_nids_subset_children with he | hsub2
    · rw [← he]; exact hx
    · exact hsub2 (Dom.nidsL_subset_nids _ hx)
  cases hpa : (resolveContainer (removeIconDoc d)).findStrict isProtect with
  | some pa =>
      have hpamem : pa.nid ∈ Dom.nidsL (removeIconDoc d).children := by
        apply hanch
        obtain ⟨c, hc, hsub⟩ := Dom.findFirstL_sub hpa
        exact SubNode.nids_subset_of_mem hc hsub.nids_subset
          (Dom.nid_mem_self pa)
      have hparent : ((Dom.parentOf pa.nid (removeIconDoc d)).getD
          (resolveContainer (removeIconDoc d))).nid ∈ (removeIconDoc d).nids := by
        cases hp : Dom.parentOf pa.nid (removeIconDoc d) with
        | some host =>
            simpa [hp] using (Dom.findFirst_sub hp).nid_mem
        | none => simpa [hp] using hsubc.nid_mem
      have hguard : ((mkWrapper f).nids.contains
          ((Dom.parentOf pa.nid (removeIconDoc d)).getD
            (resolveContainer (removeIconDoc d))).nid) = false :=
        wrapper_guard_false (hb1 _ hparent)
      rw [createIconDoc_eq_protect hpa hguard]
      exact addClasses_preserves_spec
        (insert_fresh_wrapper_spec hwf1 h01 hb1 hpamem (mkWrapper_nids f)
          (mkWrapper_countIcon f))
  | none =>
      cases hna : (resolveContainer (removeIconDoc d)).findStrict isNetwork with
      | some na =>
          have htc : (((resolveContainer (removeIconDoc d)).children.find?
              (fun c => c.nids.contains na.nid)).getD na).nid
              ∈ Dom.nidsL (removeIconDoc d).children := by
            apply hanch
            cases hfind : (resolveContainer (removeIconDoc d)).children.find?
                (fun c => c.nids.contains na.nid) with
            | some c0 =>
                simpa [hfind] using
                  Dom.nid_mem_of_mem (List.mem_of_find?_eq_some hfind)
            | none =>
                simp only [hfind, Option.getD_none]
                obtain ⟨c, hc, hsub⟩ := Dom.findFirstL_sub hna
                exact SubNode.nids_subset_of_mem hc hsub.nids_subset
                  (Dom.nid_mem_self na)
          rw [createIconDoc_eq_network hpa hna]
          apply insert_fresh_wrapper_spec hwf1 h01 hb1 htc
          · rw [Dom.nids_addClasses, mkWrapper_nids]
          · rw [Dom.countP_addClasses isIcon_styleBlind, mkWrapper_countIcon]
      | none =>
          rw [createIconDoc_eq_fallback hpa hna,
            repair_after_fallback hwf1 h01 hb1 hpa]
          exact append_fresh_wrapper_spec hwf1 h01 hb1 hsubc.nid_mem
            (mkWrapper_nids f) (mkWrapper_countIcon f)

/-! ### Repair preservation -/

theorem icon_found_facts {d ex : Dom} (hwf : WfDoc d)
    (hex : d.findFirst isIcon = some ex) :
    SubNode ex d ∧ isIcon ex = true ∧ ex.nid ≠ d.nid := by
  have hsub : SubNode ex d := Dom.findFirst_sub hex
  have hpred : isIcon ex = true := Dom.findFirst_pred hex
  refine ⟨hsub, hpred, ?_⟩
  intro he
  have : ex = d := SubNode.eq_of_nid_eq hwf.1 hsub he
  rw [this, isIcon_root_false hwf] at hpred
  cases hpred

theorem removeNid_icon_counts {d ex : Dom} (hwf : WfDoc d)
    (hex : d.findFirst isIcon = some ex) :
    (countIcon (Dom.removeNid ex.nid d) + countIcon ex = countIcon d) ∧
    (∀ m, (Dom.removeNid ex.nid d).nids.count m + ex.nids.count m
      = d.nids.count m) := by
  obtain ⟨hsub, hpred, hne⟩ := icon_found_facts hwf hex
  have hsingle : Dom.removedSubs ex.nid d = [ex] :=
    Dom.removedSubs_single hwf.1 hsub hne
  constructor
  · have h := Dom.countP_remove isIcon_styleBlind.childBlind ex.nid d
    rw [hsingle] at h
    simpa using h
  · intro m
    have h := Dom.count_nids_remove m ex.nid d
    rw [hsingle] at h
    simpa using h

theorem moveAfterAnchor_pres {a : Nat} {ex d d2 : Dom} (hwf : WfDoc d)
    (hle : countIcon d ≤ 1) (hex : d.findFirst isIcon = some ex)
    (hm : moveAfterAnchor a ex d = some d2) :
    countIcon d2 ≤ 1 ∧ WfDoc d2 ∧ ∀ k ∈ d2.nids, k ∈ d.nids := by
  obtain ⟨hcnt, hnids⟩ := removeNid_icon_counts hwf hex
  have hwfr : (Dom.removeNid ex.nid d).nids.Nodup :=
    (Dom.nids_remove_sublist ex.nid d).nodup hwf.1
  unfold moveAfterAnchor at hm
  by_cases hg : (Dom.removeNid ex.nid d).nids.contains a
  · rw [if_pos hg] at hm
    cases hm
    have hoccle : (Dom.nidsL (Dom.removeNid ex.nid d).children).count a ≤ 1 := by
      have h1 : (Dom.nidsL (Dom.removeNid ex.nid d).children).count a
          ≤ (Dom.removeNid ex.nid d).nids.count a := by
        cases hd : Dom.removeNid ex.nid d with
        | node n t i ti cl ch =>
            simp only [Dom.nids_node, List.count_cons, Dom.children]
            omega
      have h2 := List.nodup_iff_count_le_one.mp hwfr a
      omega
    refine ⟨?_, ⟨?_, ?_, ?_⟩, ?_⟩
    · unfold countIcon at hcnt hle ⊢
      rw [Dom.countP_insertAfter isIcon_styleBlind.childBlind a ex _]
      have hmul : (Dom.nidsL (Dom.removeNid ex.nid d).children).count a
          * Dom.countP isIcon ex ≤ Dom.countP isIcon ex :=
        calc (Dom.nidsL (Dom.removeNid ex.nid d).children).count a
            * Dom.countP isIcon ex ≤ 1 * Dom.countP isIcon ex :=
              Nat.mul_le_mul_right _ hoccle
          _ = Dom.countP isIcon ex := Nat.one_mul _
      omega
    · rw [List.nodup_iff_count_le_one]
      intro m
      rw [Dom.count_nids_insertAfter m a ex _]
      have h2 := List.nodup_iff_count_le_one.mp hwf.1 m
      have h3 := hnids m
      have hmul : (Dom.nidsL (Dom.removeNid ex.nid d).children).count a
          * ex.nids.count m ≤ ex.nids.count m :=
        calc (Dom.nidsL (Dom.removeNid ex.nid d).children).count a
            * ex.nids.count m ≤ 1 * ex.nids.count m :=
              Nat.mul_le_mul_right _ hoccle
          _ = ex.nids.count m := Nat.one_mul _
      omega
    · rw [Dom.tag_insertAfter, Dom.tag_removeNid]; exact hwf.2.1
    · rw [Dom.attrId_insertAfter, Dom.attrId_removeNid]; exact hwf.2.2
    · intro k hk
      have hpos : 0 < (Dom.insertAfterNid a ex (Dom.removeNid ex.nid d)).nids.count k :=
        List.count_pos_iff.mpr hk
      rw [Dom.count_nids_insertAfter k a ex _] at hpos
      have h3 := hnids k
      apply List.count_pos_iff.mp
      by_cases hz : ex.nids.count k = 0
      · rw [hz, Nat.mul_zero] at hpos
        omega
      · omega
  · rw [if_neg hg] at hm
    cases hm

theorem moveAppendChild_pres {a : Nat} {ex d d2 : Dom} (hwf : WfDoc d)
    (hle : countIcon d ≤ 1) (hex : d.findFirst isIcon = some ex)
    (hm : moveAppendChild a ex d = some d2) :
    countIcon d2 ≤ 1 ∧ WfDoc d2 ∧ ∀ k ∈ d2.nids, k ∈ d.nids := by
  obtain ⟨hcnt, hnids⟩ := removeNid_icon_counts hwf hex
  have hwfr : (Dom.removeNid ex.nid d).nids.Nodup :=
    (Dom.nids_remove_sublist ex.nid d).nodup hwf.1
  unfold moveAppendChild at hm
  by_cases hg : (Dom.removeNid ex.nid d).nids.contains a
  · rw [if_pos hg] at hm
    cases hm
    have hoccle : (Dom.removeNid ex.nid d).nids.count a ≤ 1 :=
      List.nodup_iff_count_le_one.mp hwfr a
    refine ⟨?_, ⟨?_, ?_, ?_⟩, ?_⟩
    · unfold countIcon at hcnt hle ⊢
      rw [Dom.countP_append isIcon_styleBlind.childBlind a ex _]
      have hmul : (Dom.removeNid ex.nid d).nids.count a
          * Dom.countP isIcon ex ≤ Dom.countP isIcon ex :=
        calc (Dom.removeNid ex.nid d).nids.count a * Dom.countP isIcon ex
            ≤ 1 * Dom.countP isIcon ex := Nat.mul_le_mul_right _ hoccle
          _ = Dom.countP isIcon ex := Nat.one_mul _
      omega
    · rw [List.nodup_iff_count_le_one]
      intro m
      rw [Dom.count_nids_append m a ex _]
      have h2 := List.nodup_iff_count_le_one.mp hwf.1 m
      have h3 := hnids m
      have hmul : (Dom.removeNid ex.nid d).nids.count a * ex.nids.count m
          ≤ ex.nids.count m :=
        calc (Dom.removeNid ex.nid d).nids.count a * ex.nids.count m
            ≤ 1 * ex.nids.count m := Nat.mul_le_mul_right _ hoccle
          _ = ex.nids.count m := Nat.one_mul _
      omega
    · rw [Dom.tag_appendChild, Dom.tag_removeNid]; exact hwf.2.1
    · rw [Dom.attrId_appendChild, Dom.attrId_removeNid]; exact hwf.2.2
    · intro k hk
      have hpos : 0 < (Dom.appendChildNid a ex (Dom.removeNid ex.nid d)).nids.count k :=
        List.count_pos_iff.mpr hk
      rw [Dom.count_nids_append k a ex _] at hpos
      have h3 := hnids k
      apply List.count_pos_iff.mp
      by_cases hz : ex.nids.count k = 0
      · rw [hz, Nat.mul_zero] at hpos
        omega
      · omega
  · rw [if_neg hg] at hm
    cases hm

theorem scrubRect_pres {e : Nat} {d : Dom} :
    countIcon (scrubRect e d) ≤ countIcon d ∧
      (WfDoc d → WfDoc (scrubRect e d)) ∧
      ∀ k ∈ (scrubRect e d).nids, k ∈ d.nids := by
  have hgen : ∀ r : Nat, countIcon (Dom.removeNid r d) ≤ countIcon d ∧
      (WfDoc d → WfDoc (Dom.removeNid r d)) ∧
      ∀ k ∈ (Dom.removeNid r d).nids, k ∈ d.nids := by
    intro r
    refine ⟨?_, ?_, ?_⟩
    · unfold countIcon
      have := Dom.countP_remove isIcon_styleBlind.childBlind r d
      omega
    · intro hwf
      refine ⟨(Dom.nids_remove_sublist r d).nodup hwf.1, ?_, ?_⟩
      · rw [Dom.tag_removeNid]; exact hwf.2.1
      · rw [Dom.attrId_removeNid]; exact hwf.2.2
    · exact fun k hk => (Dom.nids_remove_sublist r d).subset hk
  unfold scrubRect
  cases h1 : d.findFirst (fun x => x.nid == e) with
  | none => exact ⟨Nat.le_refl _, fun h => h, fun k hk => hk⟩
  | some ex =>
      dsimp only
      cases h2 : ex.findStrict (fun c => c.tag == "img" || c.tag == "svg") with
      | none => exact ⟨Nat.le_refl _, fun h => h, fun k hk => hk⟩
      | some child =>
          dsimp only
          by_cases h3 : child.tag == "svg"
          · rw [if_pos h3]
            cases h4 : child.findStrict (fun r => r.tag == "rect") with
            | none => exact ⟨Nat.le_refl _, fun h => h, fun k hk => hk⟩
            | some rect =>
                dsimp only
                exact hgen rect.nid
          · rw [if_neg h3]
            exact ⟨Nat.le_refl _, fun h => h, fun k hk => hk⟩

theorem addClasses_pres_basic (k : Nat) (extra : List String) {d : Dom}
    (hle : countIcon d ≤ 1) (hwf : WfDoc d) :
    countIcon (Dom.addClassesNid k extra d) ≤ 1 ∧
      WfDoc (Dom.addClassesNid k extra d) ∧
      ∀ m ∈ (Dom.addClassesNid k extra d).nids, m ∈ d.nids := by
  refine ⟨?_, ⟨?_, ?_, ?_⟩, ?_⟩
  · unfold countIcon at hle ⊢
    rw [Dom.countP_addClasses isIcon_styleBlind]
    exact hle
  · rw [Dom.nids_addClasses]; exact hwf.1
  · rw [Dom.tag_addClasses]; exact hwf.2.1
  · rw [Dom.attrId_addClasses]; exact hwf.2.2
  · intro m hm; rw [Dom.nids_addClasses] at hm; exact hm

/-- repairExisting never increases the icon count past one, keeps the
document well formed and introduces no new node identities. -/
theorem repairExisting_pres {d : Dom} (hwf : WfDoc d) (hle : countIcon d ≤ 1) :
    countIcon (repairExisting d) ≤ 1 ∧ WfDoc (repairExisting d) ∧
      ∀ k ∈ (repairExisting d).nids, k ∈ d.nids := by
  have htail : ∀ d1 : Dom, countIcon d1 ≤ 1 → WfDoc d1 →
      (∀ k ∈ d1.nids, k ∈ d.nids) → ∀ e : Nat,
      countIcon (scrubRect e d1) ≤ 1 ∧ WfDoc (scrubRect e d1) ∧
        ∀ k ∈ (scrubRect e d1).nids, k ∈ d.nids := by
    intro d1 h1 h2 h3 e
    obtain ⟨s1, s2, s3⟩ := @scrubRect_pres e d1
    exact ⟨Nat.le_trans s1 h1, s2 h2, fun k hk => h3 k (s3 k hk)⟩
  unfold repairExisting
  cases hex : d.findFirst isIcon with
  | none => exact ⟨hle, hwf, fun k hk => hk⟩
  | some ex =>
      dsimp only
      cases hsc : d.findFirst isContainerSel with
      | none => exact ⟨hle, hwf, fun k hk => hk⟩
      | some sc =>
          dsimp only
          cases hpa : sc.findStrict isProtect with
          | none =>
              dsimp only
              cases hm : moveAppendChild sc.nid ex d with
              | none => exact ⟨hle, hwf, fun k hk => hk⟩
              | some d1 =>
                  dsimp only
                  obtain ⟨h1, h2, h3⟩ := moveAppendChild_pres hwf hle hex hm
                  exact htail d1 h1 h2 h3 ex.nid
          | some pa =>
              dsimp only
              have hcopy : ∀ d1 : Dom, countIcon d1 ≤ 1 → WfDoc d1 →
                  (∀ k ∈ d1.nids, k ∈ d.nids) →
                  countIcon (scrubRect ex.nid
                    (match Dom.parentOf pa.nid d1 with
                      | some host => d1.addClassesNid ex.nid host.classes
                      | none => d1)) ≤ 1 ∧
                  WfDoc (scrubRect ex.nid
                    (match Dom.parentOf pa.nid d1 with
                      | some host => d1.addClassesNid ex.nid host.classes
                      | none => d1)) ∧
                  ∀ k ∈ (scrubRect ex.nid
                    (match Dom.parentOf pa.nid d1 with
                      | some host => d1.addClassesNid ex.nid host.classes
                      | none => d1)).nids, k ∈ d.nids := by
                intro d1 h1 h2 h3
                cases hpo : Dom.parentOf pa.nid d1 with
                | none => exact htail d1 h1 h2 h3 ex.nid
                | some host =>
                    dsimp only
                    obtain ⟨a1, a2, a3⟩ :=
                      addClasses_pres_basic ex.nid host.classes h1 h2
                    exact htail _ a1 a2 (fun k hk => h3 k (a3 k hk)) ex.nid
              cases h1 : moveAfterAnchor pa.nid ex d with
              | some d1 =>
                  dsimp only
                  obtain ⟨m1, m2, m3⟩ := moveAfterAnchor_pres hwf hle hex h1
                  exact hcopy d1 m1 m2 m3
              | none =>
                  dsimp only
                  cases h2 : moveAfterAnchor
                      ((sc.children.find?
                        (fun c => c.nids.contains pa.nid)).getD pa).nid ex d with
                  | some d1 =>
                      dsimp only
                      obtain ⟨m1, m2, m3⟩ := moveAfterAnchor_pres hwf hle hex h2
                      exact hcopy d1 m1 m2 m3
                  | none =>
                      dsimp only
                      cases hm : moveAppendChild sc.nid ex d with
                      | none => exact ⟨hle, hwf, fun k hk => hk⟩
                      | some d1 =>
                          dsimp only
                          obtain ⟨m1, m2, m3⟩ := moveAppendChild_pres hwf hle hex hm
                          exact hcopy d1 m1 m2 m3

/-! ### The state invariant -/

/-- The singleton invariant: well-formed state with at most one icon. -/
def StInv (s : St) : Prop := WfSt s ∧ countIcon s.doc ≤ 1

theorem createIconS_inv {link : Option String} {t : Nat} {s : St}
    (h : StInv s) : StInv (createIconS link t s) := by
  unfold createIconS
  by_cases hd : debounced s t
  · rw [if_pos hd]; exact h
  · rw [if_neg hd]
    obtain ⟨⟨hwf, hb⟩, hle⟩ := h
    obtain ⟨h1, h2, h3⟩ := createIconDoc_spec hwf hle hb
    exact ⟨⟨h2, h3⟩, Nat.le_of_eq h1⟩

theorem removeIconS_inv {s : St} (h : StInv s) : StInv (removeIconS s) := by
  obtain ⟨⟨hwf, hb⟩, hle⟩ := h
  refine ⟨⟨removeIconDoc_wfdoc hwf, ?_⟩, ?_⟩
  · intro k hk
    exact hb k ((removeIconDoc_nids_sublist s.doc).subset hk)
  · show countIcon (removeIconDoc s.doc) ≤ 1
    rw [removeIconDoc_count hwf hle]
    exact Nat.zero_le 1

theorem loadAndCreateS_inv {t : Nat} {s : St} (h : StInv s) :
    StInv (loadAndCreateS t s) := by
  unfold loadAndCreateS
  exact createIconS_inv h

theorem observeS_inv {t : Nat} {s : St} (h : StInv s) : StInv (observeS t s) := by
  unfold observeS
  cases s.doc.findFirst isIcon with
  | some x => exact h
  | none =>
      dsimp only
      by_cases hc : t < s.lastCreate.getD 0 + 1000
      · rw [if_pos hc]; exact h
      · rw [if_neg hc]; exact loadAndCreateS_inv h

theorem pollS_inv {t : Nat} {s : St} (h : StInv s) : StInv (pollS t s) := by
  unfold pollS
  cases s.doc.findFirst isProtect with
  | none => exact h
  | some x =>
      cases s.doc.findFirst isIcon with
      | some y => exact h
      | none => exact createIconS_inv h

theorem applyOp_inv {op : Op} {s : St} (h : StInv s) : StInv (applyOp op s) := by
  cases op with
  | create link t => exact createIconS_inv h
  | remove => exact removeIconS_inv h
  | repair =>
      obtain ⟨⟨hwf, hb⟩, hle⟩ := h
      obtain ⟨h1, h2, h3⟩ := repairExisting_pres hwf hle
      exact ⟨⟨h2, fun k hk => hb k (h3 k hk)⟩, h1⟩
  | load t => exact loadAndCreateS_inv h
  | observe t => exact observeS_inv h
  | poll t => exact pollS_inv h
  | save v d => exact h

theorem runOps_inv {s : St} (h : StInv s) :
    ∀ ops : List Op, StInv (runOps s ops)
  | [] => h
  | op :: rest => runOps_inv (@applyOp_inv op _ h) rest

/-! ### Small claim-level helpers -/

theorem createIconS_eff {link : Option String} {t : Nat} {s : St}
    (h : debounced s t = false) :
    createIconS link t s = createIconEff link t s := by
  unfold createIconS
  rw [h]
  rfl

theorem createIconS_deb {link : Option String} {t : Nat} {s : St}
    (h : debounced s t = true) : createIconS link t s = s := by
  unfold createIconS
  rw [h]
  rfl

theorem debounced_eff (link : Option String) (t t2 : Nat) (s : St) :
    debounced (createIconEff link t s) t2
      = (decide (0 < t) && decide (t2 < t + 500)) := rfl

theorem debounced_none {s : St} {t : Nat} (h : s.lastCreate = none) :
    debounced s t = false := by
  unfold debounced
  rw [h]

theorem debounced_false_of_ge {s : St} {t l : Nat} (h : s.lastCreate = some l)
    (hge : l + 500 ≤ t) : debounced s t = false := by
  unfold debounced
  rw [h]
  dsimp only
  have h2 : decide (t < l + 500) = false := by
    simp only [decide_eq_false_iff_not]
    omega
  rw [h2, Bool.and_false]

theorem loadedLink_ne_empty (st : Storage) : loadedLink st ≠ "" := by
  unfold loadedLink
  by_cases h : (st.driveLink.getD "") == ""
  · rw [if_pos h]
    simp [DEFAULT_LINK]
  · rw [if_neg h]
    simpa using h

theorem Dom.findNid_self (x : Dom) :
    x.findFirst (fun y => y.nid == x.nid) = some x := by
  cases x with
  | node n t i ti cl ch =>
      rw [Dom.findFirst_node, if_pos (by simp [Dom.nid])]

theorem Dom.findStrict_none_of_findFirst_none {p : Dom → Bool} {d : Dom}
    (h : d.findFirst p = none) : d.findStrict p = none := by
  cases d with
  | node n t i ti cl ch =>
      rw [Dom.findFirst_node] at h
      unfold Dom.findStrict
      split at h
      · cases h
      · simpa [Dom.children] using h

theorem resolveContainer_eq_self_of_none {d : Dom}
    (hc : d.findFirst isContainerSel = none)
    (hn : d.findFirst isNetwork = none) :
    resolveContainer d = d := by
  unfold resolveContainer
  rw [hc, hn]

theorem SubNode.of_mem_children {x c d : Dom} (hc : c ∈ d.children)
    (hx : SubNode x c) : SubNode x d := by
  cases d with
  | node n t i ti cl ch =>
      exact SubNode.step (by simpa [Dom.children] using hc) hx

theorem rectPred_styleBlind : StyleBlind (fun c => c.tag == "rect") := by
  intro n t i ti cl cl2 ch ch2
  simp [Dom.tag]

theorem scrubRect_id_of_no_rect {e : Nat} {d ex : Dom}
    (hfind : d.findFirst (fun x => x.nid == e) = some ex)
    (h0 : Dom.countP (fun c => c.tag == "rect") ex = 0) :
    scrubRect e d = d := by
  unfold scrubRect
  rw [hfind]
  dsimp only
  cases hg : ex.findStrict (fun c => c.tag == "img" || c.tag == "svg") with
  | none => rfl
  | some child =>
      dsimp only
      by_cases hsvg : child.tag == "svg"
      · rw [if_pos hsvg]
        cases hr : child.findStrict (fun r => r.tag == "rect") with
        | none => rfl
        | some rect =>
            exfalso
            have hr2 : Dom.findFirstL (fun r => r.tag == "rect") child.children
                = some rect := hr
            obtain ⟨c1, hc1, hsub1⟩ := Dom.findFirstL_sub hr2
            have hpred : ((fun r => r.tag == "rect") rect) = true :=
              Dom.findFirstL_pred hr2
            have hg2 : Dom.findFirstL (fun c => c.tag == "img" || c.tag == "svg")
                ex.children = some child := hg
            obtain ⟨c2, hc2, hsub2⟩ := Dom.findFirstL_sub hg2
            have hsubRealEx : SubNode rect ex :=
              (SubNode.of_mem_children hc1 hsub1).trans
                (SubNode.of_mem_children hc2 hsub2)
            have h1 : 1 ≤ Dom.countP (fun c => c.tag == "rect") rect :=
              Dom.countP_ge_one_of_pred hpred
            have h2 : Dom.countP (fun c => c.tag == "rect") rect
                ≤ Dom.countP (fun c => c.tag == "rect") ex :=
              hsubRealEx.countP_le
            omega
      · rw [if_neg hsvg]

/-! ### Concrete documents and states used to instantiate the theorems -/

/-- A minimal UniFi header: body holding the explicit container with the
protect anchor. -/
def demoBody : Dom :=
  Dom.node 0 "body" "" "" []
    [Dom.node 1 "div" "" "" ["unifi-portal-1vz64y0", "evzy7n80"]
      [Dom.node 2 "a" "" "applink-protect" [] []]]

/-- A header carrying only the network anchor. -/
def demoNet : Dom :=
  Dom.node 0 "body" "" "" []
    [Dom.node 1 "div" "" "" ["unifi-portal-1vz64y0", "evzy7n80"]
      [Dom.node 2 "a" "" "applink-network" [] []]]

/-- A bare body with no anchors and no container. -/
def demoBare : Dom := Dom.node 0 "body" "" "" [] []

/-- A header whose icon has been orphaned onto the body. -/
def demoOrphan : Dom :=
  Dom.node 0 "body" "" "" []
    [Dom.node 1 "div" "" "" ["unifi-portal-1vz64y0", "evzy7n80"]
      [Dom.node 2 "a" "" "applink-protect" [] []],
     Dom.node 3 "a" ICON_ID "" ["local-unifi-drive-wrapper"]
       [Dom.node 4 "svg" "" "" [] []]]

/-- Initial script state over `demoBody`, before any run. -/
def st0 : St :=
  { doc := demoBody, nextNid := 3, lastCreate := none, currentLink := "",
    handlerLink := none,
    storage := { driveLink := none, delayedCreate := none } }

/-! ### The claims -/

/-- C1: along every sequence of createIcon, removeIcon, repairExisting,
loadAndCreate, mutation-observer and watcher-poll invocations and
options saves, starting from a well-formed state holding at most one
icon, the document contains zero or one elements with the reserved
identifier ICON_ID. -/
theorem C1_singleton_invariant {s0 : St} (hwf : WfSt s0)
    (hle : countIcon s0.doc ≤ 1) (ops : List Op) :
    countIcon (runOps s0 ops).doc ≤ 1 :=
  (runOps_inv ⟨hwf, hle⟩ ops).2

theorem C1_singleton_invariant_witness :
    countIcon (runOps st0 [Op.create none 0, Op.observe 2000, Op.remove,
      Op.poll 3000, Op.repair, Op.save "x" 7, Op.load 9000]).doc ≤ 1 :=
  @C1_singleton_invariant st0 ⟨⟨by decide, rfl, by decide⟩, by decide⟩
    (by decide) _

/-- C2: two createIcon invocations in succession, with the second falling
outside the 500 ms debounce window of the first (under a monotone clock),
leave exactly one icon element in the document. -/
theorem C2_double_create {link1 link2 : Option String} {t1 t2 : Nat} {s : St}
    (hwf : WfSt s) (hle : countIcon s.doc ≤ 1)
    (hmono : ∀ l, s.lastCreate = some l → l ≤ t1)
    (hgap : t1 + 500 ≤ t2) :
    countIcon (createIconS link2 t2 (createIconS link1 t1 s)).doc = 1 := by
  have hinv1 : StInv (createIconS link1 t1 s) := createIconS_inv ⟨hwf, hle⟩
  have hnd : debounced (createIconS link1 t1 s) t2 = false := by
    by_cases hd : debounced s t1
    · rw [createIconS_deb hd]
      cases hl : s.lastCreate with
      | none => exact debounced_none hl
      | some l =>
          have hll := hmono l hl
          exact debounced_false_of_ge hl (by omega)
    · rw [createIconS_eff (by simpa using hd)]
      exact debounced_false_of_ge rfl (by omega)
  rw [createIconS_eff hnd]
  exact (createIconDoc_spec hinv1.1.1 hinv1.2 hinv1.1.2).1

theorem C2_double_create_witness :
    countIcon (createIconS none 600 (createIconS none 0 st0)).doc = 1 :=
  @C2_double_create none none 0 600 st0 ⟨⟨by decide, rfl, by decide⟩, by decide⟩
    (by decide) (fun l h => Option.noConfusion h) (by decide)

/-- C3: when the resolved container holds the protect anchor, an
effective createIcon run leaves the icon element as the next sibling of
that anchor (direct-sibling insertion never being structurally
impossible for the freshly built wrapper). -/
theorem C3_protect_adjacency {f : Nat} {d pa : Dom} (hwf : WfDoc d)
    (hf : ∀ k ∈ d.nids, k < f)
    (hpa : (resolveContainer (removeIconDoc d)).findStrict isProtect
      = some pa) :
    ∃ w, Dom.sibAfter pa.nid (createIconDoc f d) = some w ∧
      isIcon w = true := by
  have hwf1 : WfDoc (removeIconDoc d) := removeIconDoc_wfdoc hwf
  have hb1 : ∀ k ∈ (removeIconDoc d).nids, k < f :=
    fun k hk => hf k ((removeIconDoc_nids_sublist d).subset hk)
  have hsubc : SubNode (resolveContainer (removeIconDoc d))
      (removeIconDoc d) := resolveContainer_sub (removeIconDoc d)
  have hpamem : pa.nid ∈ Dom.nidsL (removeIconDoc d).children := by
    have hx : pa.nid ∈ Dom.nidsL (resolveContainer (removeIconDoc d)).children := by
      obtain ⟨c, hc, hsub⟩ := Dom.findFirstL_sub hpa
      exact SubNode.nids_subset_of_mem hc hsub.nids_subset (Dom.nid_mem_self pa)
    rcases hsubc.eq_or_nids_subset_children with he | hsub2
    · rw [← he]; exact hx
    · exact hsub2 (Dom.nidsL_subset_nids _ hx)
  have hparent : ((Dom.parentOf pa.nid (removeIconDoc d)).getD
      (resolveContainer (removeIconDoc d))).nid ∈ (removeIconDoc d).nids := by
    cases hp : Dom.parentOf pa.nid (removeIconDoc d) with
    | some host => simpa [hp] using (Dom.findFirst_sub hp).nid_mem
    | none => simpa [hp] using hsubc.nid_mem
  have hguard : ((mkWrapper f).nids.contains
      ((Dom.parentOf pa.nid (removeIconDoc d)).getD
        (resolveContainer (removeIconDoc d))).nid) = false :=
    wrapper_guard_false (hb1 _ hparent)
  refine ⟨Dom.addClassesNid f
      ((Dom.parentOf pa.nid (removeIconDoc d)).getD
        (resolveContainer (removeIconDoc d))).classes (mkWrapper f), ?_, ?_⟩
  · rw [createIconDoc_eq_protect hpa hguard, Dom.sibAfter_addClasses,
      Dom.sibAfter_insert hpamem, Option.map_some']
  · unfold isIcon
    rw [Dom.attrId_addClasses]
    exact mkWrapper_isIcon f

theorem C3_protect_adjacency_witness :
    ∃ w, Dom.sibAfter (Dom.node 2 "a" "" "applink-protect" [] []).nid
        (createIconDoc 3 demoBody) = some w ∧ isIcon w = true :=
  @C3_protect_adjacency 3 demoBody (Dom.node 2 "a" "" "applink-protect" [] [])
    ⟨by decide, rfl, by decide⟩ (by decide) rfl

/-- C4: without the protect anchor, an effective createIcon run places
the icon as the next sibling of the network anchor's visual host under
the container; with neither anchor, it appends the wrapper as a child of
the resolved container and still ends with exactly one icon (no error
path escapes). -/
theorem C4_fallback_ordering {f : Nat} {d : Dom} (hwf : WfDoc d)
    (hle : countIcon d ≤ 1) (hf : ∀ k ∈ d.nids, k < f)
    (hpa : (resolveContainer (removeIconDoc d)).findStrict isProtect
      = none) :
    (∀ na, (resolveContainer (removeIconDoc d)).findStrict isNetwork
        = some na →
      ∃ w, Dom.sibAfter
          (((resolveContainer (removeIconDoc d)).children.find?
            (fun c => c.nids.contains na.nid)).getD na).nid
          (createIconDoc f d) = some w ∧ isIcon w = true) ∧
    ((resolveContainer (removeIconDoc d)).findStrict isNetwork = none →
      createIconDoc f d
        = Dom.appendChildNid (resolveContainer (removeIconDoc d)).nid
            (mkWrapper f) (removeIconDoc d) ∧
      countIcon (createIconDoc f d) = 1) := by
  have hwf1 : WfDoc (removeIconDoc d) := removeIconDoc_wfdoc hwf
  have h01 : countIcon (removeIconDoc d) = 0 := removeIconDoc_count hwf hle
  have hb1 : ∀ k ∈ (removeIconDoc d).nids, k < f :=
    fun k hk => hf k ((removeIconDoc_nids_sublist d).subset hk)
  have hsubc : SubNode (resolveContainer (removeIconDoc d))
      (removeIconDoc d) := resolveContainer_sub (removeIconDoc d)
  have hanch : ∀ m : Nat,
      m ∈ Dom.nidsL (resolveContainer (removeIconDoc d)).children →
      m ∈ Dom.nidsL (removeIconDoc d).children := by
    intro m hx
    rcases hsubc.eq_or_nids_subset_children with he | hsub2
    · rw [← he]; exact hx
    · exact hsub2 (Dom.nidsL_subset_nids _ hx)
  constructor
  · intro na hna
    have htc : (((resolveContainer (removeIconDoc d)).children.find?
        (fun c => c.nids.contains na.nid)).getD na).nid
        ∈ Dom.nidsL (removeIconDoc d).children := by
      apply hanch
      cases hfind : (resolveContainer (removeIconDoc d)).children.find?
          (fun c => c.nids.contains na.nid) with
      | some c0 =>
          simpa [hfind] using
            Dom.nid_mem_of_mem (List.mem_of_find?_eq_some hfind)
      | none =>
          simp only [hfind, Option.getD_none]
          obtain ⟨c, hc, hsub⟩ := Dom.findFirstL_sub hna
          exact SubNode.nids_subset_of_mem hc hsub.nids_subset
            (Dom.nid_mem_self na)
    refine ⟨Dom.addClassesNid f
        (((resolveContainer (removeIconDoc d)).children.find?
          (fun c => c.nids.contains na.nid)).getD na).classes
        (mkWrapper f), ?_, ?_⟩
    · rw [createIconDoc_eq_network hpa hna, Dom.sibAfter_insert htc]
    · unfold isIcon
      rw [Dom.attrId_addClasses]
      exact mkWrapper_isIcon f
  · intro hna
    have heq : createIconDoc f d
        = Dom.appendChildNid (resolveContainer (removeIconDoc d)).nid
            (mkWrapper f) (removeIconDoc d) := by
      rw [createIconDoc_eq_fallback hpa hna,
        repair_after_fallback hwf1 h01 hb1 hpa]
    refine ⟨heq, ?_⟩
    rw [heq]
    exact (append_fresh_wrapper_spec hwf1 h01 hb1 hsubc.nid_mem
      (mkWrapper_nids f) (mkWrapper_countIcon f)).1

theorem C4_fallback_ordering_witness :
    (∀ na, (resolveContainer (removeIconDoc demoNet)).findStrict isNetwork
        = some na →
      ∃ w, Dom.sibAfter
          (((resolveContainer (removeIconDoc demoNet)).children.find?
            (fun c => c.nids.contains na.nid)).getD na).nid
          (createIconDoc 3 demoNet) = some w ∧ isIcon w = true) ∧
    ((resolveContainer (removeIconDoc demoNet)).findStrict isNetwork = none →
      createIconDoc 3 demoNet
        = Dom.appendChildNid (resolveContainer (removeIconDoc demoNet)).nid
            (mkWrapper 3) (removeIconDoc demoNet) ∧
      countIcon (createIconDoc 3 demoNet) = 1) :=
  @C4_fallback_ordering 3 demoNet ⟨by decide, rfl, by decide⟩ (by decide)
    (by decide) rfl

/-- C5: createIcon is a total document transformer (the source wraps its
body in catch-alls, modelled by total functions); every effective run
ends with exactly one icon, and when no container and no anchor exist
at all the wrapper is appended directly to the document body. -/
theorem C5_error_absorption {f : Nat} {d : Dom} (hwf : WfDoc d)
    (hle : countIcon d ≤ 1) (hf : ∀ k ∈ d.nids, k < f) :
    countIcon (createIconDoc f d) = 1 ∧
      ((removeIconDoc d).findFirst isContainerSel = none →
       (removeIconDoc d).findFirst isNetwork = none →
       (removeIconDoc d).findFirst isProtect = none →
        createIconDoc f d
          = Dom.appendChildNid (removeIconDoc d).nid (mkWrapper f)
              (removeIconDoc d)) := by
  refine ⟨(createIconDoc_spec hwf hle hf).1, ?_⟩
  intro hc hn hp
  have hres : resolveContainer (removeIconDoc d) = removeIconDoc d :=
    resolveContainer_eq_self_of_none hc hn
  have hwf1 : WfDoc (removeIconDoc d) := removeIconDoc_wfdoc hwf
  have h01 : countIcon (removeIconDoc d) = 0 := removeIconDoc_count hwf hle
  have hb1 : ∀ k ∈ (removeIconDoc d).nids, k < f :=
    fun k hk => hf k ((removeIconDoc_nids_sublist d).subset hk)
  have hpa : (resolveContainer (removeIconDoc d)).findStrict isProtect
      = none := by
    rw [hres]
    exact Dom.findStrict_none_of_findFirst_none hp
  have hna : (resolveContainer (removeIconDoc d)).findStrict isNetwork
      = none := by
    rw [hres]
    exact Dom.findStrict_none_of_findFirst_none hn
  rw [createIconDoc_eq_fallback hpa hna,
    repair_after_fallback hwf1 h01 hb1 hpa, hres]

theorem C5_error_absorption_witness :
    countIcon (createIconDoc 1 demoBare) = 1 ∧
      ((removeIconDoc demoBare).findFirst isContainerSel = none →
       (removeIconDoc demoBare).findFirst isNetwork = none →
       (removeIconDoc demoBare).findFirst isProtect = none →
        createIconDoc 1 demoBare
          = Dom.appendChildNid (removeIconDoc demoBare).nid (mkWrapper 1)
              (removeIconDoc demoBare)) :=
  @C5_error_absorption 1 demoBare ⟨by decide, rfl, by decide⟩ (by decide)
    (by decide)

/-- C7: the options save handler stores the entered link, the options
input and loadAndCreate both read it back verbatim (for a non-empty
link, `items.driveLink || DEFAULT_LINK` being identity), and with no
stored value loadAndCreate falls back to the default placeholder URL. -/
theorem C7_settings_roundtrip {v : String} {delay : Nat} {st st2 : Storage}
    (hv : v ≠ "") (hnone : st2.driveLink = none) :
    loadedLink (saveSettings v delay st) = v ∧
      optionsShownLink (saveSettings v delay st) = v ∧
      loadedLink st2 = DEFAULT_LINK := by
  refine ⟨?_, rfl, ?_⟩
  · simp [loadedLink, saveSettings, hv]
  · simp [loadedLink, hnone]

theorem C7_settings_roundtrip_witness :
    loadedLink (saveSettings "https://files.example.org/x" 0
        { driveLink := none, delayedCreate := none })
      = "https://files.example.org/x" ∧
    optionsShownLink (saveSettings "https://files.example.org/x" 0
        { driveLink := none, delayedCreate := none })
      = "https://files.example.org/x" ∧
    loadedLink { driveLink := none, delayedCreate := none }
      = DEFAULT_LINK :=
  C7_settings_roundtrip (by decide) rfl

/-- C8: clicking the icon placed by an effective loadAndCreate run opens
exactly one new browsing context, targeting the link loaded from
storage (the default placeholder when none is stored), and suppresses
the click's default action. -/
theorem C8_click_behavior {t : Nat} {s : St} (heff : debounced s t = false) :
    (iconClick (loadAndCreateS t s).handlerLink
        (loadAndCreateS t s).currentLink).opened = [loadedLink s.storage] ∧
    (iconClick (loadAndCreateS t s).handlerLink
        (loadAndCreateS t s).currentLink).defaultPrevented = true ∧
    (s.storage.driveLink = none →
      (iconClick (loadAndCreateS t s).handlerLink
        (loadAndCreateS t s).currentLink).opened = [DEFAULT_LINK]) := by
  have hl : loadAndCreateS t s
      = createIconEff (some (loadedLink s.storage)) t
          { s with currentLink := loadedLink s.storage } := by
    unfold loadAndCreateS
    exact createIconS_eff heff
  have hne := loadedLink_ne_empty s.storage
  have hopen : (iconClick (loadAndCreateS t s).handlerLink
      (loadAndCreateS t s).currentLink).opened = [loadedLink s.storage] := by
    rw [hl]
    show [jsOr ((some (loadedLink s.storage)).getD "")
        (jsOr (loadedLink s.storage) DEFAULT_LINK)] = [loadedLink s.storage]
    rw [Option.getD_some]
    unfold jsOr
    rw [if_neg (by simpa using hne)]
  refine ⟨hopen, ?_, ?_⟩
  · rw [hl]; rfl
  · intro h0
    rw [hopen]
    simp [loadedLink, h0]

theorem C8_click_behavior_witness :
    (iconClick (loadAndCreateS 0 st0).handlerLink
        (loadAndCreateS 0 st0).currentLink).opened
      = [loadedLink st0.storage] ∧
    (iconClick (loadAndCreateS 0 st0).handlerLink
        (loadAndCreateS 0 st0).currentLink).defaultPrevented = true ∧
    (st0.storage.driveLink = none →
      (iconClick (loadAndCreateS 0 st0).handlerLink
        (loadAndCreateS 0 st0).currentLink).opened = [DEFAULT_LINK]) :=
  @C8_click_behavior 0 st0 rfl

/-- C9: the mutation-observer callback is the identity whenever the
icon is still present; when the icon is missing it re-runs the full
loadAndCreate sequence, unless the last effective creation is less than
1000 ms old, in which case re-creation is suppressed. -/
theorem C9_observer_semantics {t : Nat} {s : St} :
    ((s.doc.findFirst isIcon).isSome → observeS t s = s) ∧
    (s.doc.findFirst isIcon = none → t < s.lastCreate.getD 0 + 1000 →
      observeS t s = s) ∧
    (s.doc.findFirst isIcon = none → s.lastCreate.getD 0 + 1000 ≤ t →
      observeS t s = loadAndCreateS t s) := by
  refine ⟨?_, ?_, ?_⟩
  · intro h
    unfold observeS
    cases hf : s.doc.findFirst isIcon with
    | some x => rfl
    | none => rw [hf] at h; cases h
  · intro h1 h2
    unfold observeS
    rw [h1]
    dsimp only
    rw [if_pos h2]
  · intro h1 h2
    unfold observeS
    rw [h1]
    dsimp only
    rw [if_neg (by omega)]

theorem C9_observer_semantics_witness :
    observeS 2000 st0 = loadAndCreateS 2000 st0 :=
  (@C9_observer_semantics 2000 st0).2.2 rfl (by decide)

/-- C10 (amended): the 500 ms debounce is keyed to `createIcon._last`,
which only runs that pass the check update, and is a truthiness test,
so it fires only for a stamp at a nonzero clock; a call less than
500 ms after the most recent effective createIcon run stamped at a
nonzero time leaves the state, and in particular the document,
entirely unchanged. -/
theorem C10_debounce_frame {link : Option String} {t l : Nat} {s : St}
    (h : s.lastCreate = some l) (hl0 : 0 < l) (hlt : t < l + 500) :
    createIconS link t s = s := by
  have hd : debounced s t = true := by
    unfold debounced
    rw [h]
    simp [hl0, hlt]
  exact createIconS_deb hd

theorem C10_debounce_frame_witness :
    (createIconS none 100 st0).lastCreate = some 100 ∧ (0 : Nat) < 100 ∧
      400 < 100 + 500 ∧
      createIconS none 400 (createIconS none 100 st0)
        = createIconS none 100 st0 :=
  ⟨rfl, by decide, by decide, C10_debounce_frame rfl (by decide) (by decide)⟩

/-- C10 as stated fails: a call 400 ms after a previous (debounced)
createIcon invocation still rebuilds the icon, because the check
compares against the last effective run, not the last invocation.
Effective run at t = 100, debounced call at t = 500, call at t = 900:
900 − 500 < 500, yet the document changes (its node identities
differ). -/
theorem C10_counterexample :
    500 ≤ 900 ∧ 900 - 500 < 500 ∧
      (createIconS none 900
          (createIconS none 500 (createIconS none 100 st0))).doc.nids
        ≠ (createIconS none 500 (createIconS none 100 st0)).doc.nids := by
  refine ⟨by decide, by decide, by decide⟩

/-- C6: repair convergence.  When the document holds an icon (orphaned
anywhere outside the container, e.g. on the body), the explicit
container, and the protect anchor inside it, repairExisting moves the
icon to be the next sibling of the protect anchor, inside the subtree
of the container node; the icon keeps its reserved identifier.  The
disjointness hypotheses say the icon is not an ancestor or descendant
of the container or anchor, and the rect-free hypothesis says the
legacy-graphic scrub pass of lines 410-430 finds nothing to delete. -/
theorem C6_repair_convergence {d ic sc pa : Dom} (hwf : WfDoc d)
    (hic : d.findFirst isIcon = some ic)
    (hsc : d.findFirst isContainerSel = some sc)
    (hpa : sc.findStrict isProtect = some pa)
    (hpnotic : pa.nid ∉ ic.nids) (hscnotic : sc.nid ∉ ic.nids)
    (hicnotsc : ic.nid ∉ sc.nids)
    (hnorect : Dom.countP (fun c => c.tag == "rect") ic = 0) :
    ∃ w, Dom.sibAfter pa.nid (repairExisting d) = some w ∧
      isIcon w = true ∧ w.nid = ic.nid ∧
      ∃ sc2, (repairExisting d).findFirst (fun x => x.nid == sc.nid)
          = some sc2 ∧ ic.nid ∈ sc2.nids := by
  obtain ⟨hsubIc, hIcPred, hIcNe⟩ := icon_found_facts hwf hic
  have hsubSc : SubNode sc d := Dom.findFirst_sub hsc
  have hpa2 : Dom.findFirstL isProtect sc.children = some pa := hpa
  obtain ⟨c0, hc0, hsubpac⟩ := Dom.findFirstL_sub hpa2
  have hsubPaSc : SubNode pa sc := SubNode.of_mem_children hc0 hsubpac
  have hsubPa : SubNode pa d := hsubPaSc.trans hsubSc
  have hpaNeRoot : pa.nid ≠ d.nid := by
    intro he
    have hpd : pa = d := SubNode.eq_of_nid_eq hwf.1 hsubPa he
    have hp : isProtect pa = true := Dom.findFirstL_pred hpa2
    rw [hpd] at hp
    unfold isProtect at hp
    rw [hwf.2.1] at hp
    simp at hp
  obtain ⟨hcnt, hnids⟩ := removeNid_icon_counts hwf hic
  have hcount1 : d.nids.count ic.nid = 1 :=
    List.count_eq_one_of_mem hwf.1 hsubIc.nid_mem
  have hicIc : 0 < ic.nids.count ic.nid :=
    List.count_pos_iff.mpr (Dom.nid_mem_self ic)
  have hicD1count : (Dom.removeNid ic.nid d).nids.count ic.nid = 0 := by
    have h := hnids ic.nid
    omega
  have hq0 : Dom.countP (fun x => x.nid == ic.nid)
      (Dom.removeNid ic.nid d) = 0 := by
    rw [Dom.countP_nid_eq_count]
    exact hicD1count
  have hpaD1 : pa.nid ∈ (Dom.removeNid ic.nid d).nids := by
    have h1 : 0 < d.nids.count pa.nid := List.count_pos_iff.mpr hsubPa.nid_mem
    have h2 : ic.nids.count pa.nid = 0 := List.count_eq_zero.mpr hpnotic
    have h := hnids pa.nid
    exact List.count_pos_iff.mp (by omega)
  have hpaD1child : pa.nid ∈ Dom.nidsL (Dom.removeNid ic.nid d).children := by
    apply Dom.mem_forest_of_ne hpaD1
    rw [Dom.nid_removeNid]
    exact hpaNeRoot
  have hmv : moveAfterAnchor pa.nid ic d
      = some (Dom.insertAfterNid pa.nid ic (Dom.removeNid ic.nid d)) := by
    simp only [moveAfterAnchor]
    rw [if_pos ((natList_contains_iff _ _).mpr hpaD1)]
  have hsibDMV : Dom.sibAfter pa.nid
      (Dom.insertAfterNid pa.nid ic (Dom.removeNid ic.nid d)) = some ic :=
    Dom.sibAfter_insert hpaD1child
  have hfindicDMV : (Dom.insertAfterNid pa.nid ic
        (Dom.removeNid ic.nid d)).findFirst (fun x => x.nid == ic.nid)
      = some ic := by
    have h1 : (Dom.insertAfterNid pa.nid ic
          (Dom.removeNid ic.nid d)).findFirst (fun x => x.nid == ic.nid)
        = if pa.nid ∈ Dom.nidsL (Dom.removeNid ic.nid d).children then
            ic.findFirst (fun x => x.nid == ic.nid) else none :=
      Dom.findFirst_insert_fresh (nidIs_styleBlind ic.nid).childBlind
        pa.nid hq0
    rw [if_pos hpaD1child, Dom.findNid_self] at h1
    exact h1
  have hqsc0 : Dom.countP (fun x => x.nid == sc.nid) ic = 0 := by
    rw [Dom.countP_nid_eq_count]
    exact List.count_eq_zero.mpr hscnotic
  have hfsc_d : d.findFirst (fun x => x.nid == sc.nid) = some sc :=
    Dom.findNid_of_sub hwf.1 hsubSc
  have hfsc_D1 : (Dom.removeNid ic.nid d).findFirst
      (fun x => x.nid == sc.nid) = some sc := by
    have h2 := Dom.findFirst_remove (nidIs_styleBlind sc.nid).childBlind
      hwf.1 hsubIc hIcNe hqsc0
    rw [hfsc_d, Option.map_some', Dom.removeNid_of_not_mem hicnotsc] at h2
    exact h2
  have hfindscDMV : (Dom.insertAfterNid pa.nid ic
        (Dom.removeNid ic.nid d)).findFirst (fun x => x.nid == sc.nid)
      = some (Dom.insertAfterNid pa.nid ic sc) := by
    have h3 := Dom.findFirst_insertAfter (nidIs_styleBlind sc.nid).childBlind
      hqsc0 pa.nid (Dom.removeNid ic.nid d)
    rw [hfsc_D1, Option.map_some'] at h3
    exact h3
  have hpaInScCh : pa.nid ∈ Dom.nidsL sc.children :=
    SubNode.nids_subset_of_mem hc0 hsubpac.nids_subset (Dom.nid_mem_self pa)
  have hmemsc1 : ic.nid ∈ (Dom.insertAfterNid pa.nid ic sc).nids := by
    apply List.count_pos_iff.mp
    rw [Dom.count_nids_insertAfter]
    have hc1 : 0 < (Dom.nidsL sc.children).count pa.nid :=
      List.count_pos_iff.mpr hpaInScCh
    have hc2 := Nat.mul_pos hc1 hicIc
    omega
  cases hhost : Dom.parentOf pa.nid
      (Dom.insertAfterNid pa.nid ic (Dom.removeNid ic.nid d)) with
  | none =>
      have hred : repairExisting d
          = scrubRect ic.nid
              (Dom.insertAfterNid pa.nid ic (Dom.removeNid ic.nid d)) := by
        simp only [repairExisting, hic, hsc, hpa, hmv, hhost]
      have hscrub : scrubRect ic.nid
          (Dom.insertAfterNid pa.nid ic (Dom.removeNid ic.nid d))
          = Dom.insertAfterNid pa.nid ic (Dom.removeNid ic.nid d) :=
        scrubRect_id_of_no_rect hfindicDMV hnorect
      refine ⟨ic, ?_, hIcPred, rfl, Dom.insertAfterNid pa.nid ic sc, ?_, hmemsc1⟩
      · rw [hred, hscrub]
        exact hsibDMV
      · rw [hred, hscrub]
        exact hfindscDMV
  | some host =>
      have hred : repairExisting d
          = scrubRect ic.nid
              (Dom.addClassesNid ic.nid host.classes
                (Dom.insertAfterNid pa.nid ic (Dom.removeNid ic.nid d))) := by
        simp only [repairExisting, hic, hsc, hpa, hmv, hhost]
      have hfindic2 : (Dom.addClassesNid ic.nid host.classes
            (Dom.insertAfterNid pa.nid ic (Dom.removeNid ic.nid d))).findFirst
            (fun x => x.nid == ic.nid)
          = some (Dom.addClassesNid ic.nid host.classes ic) := by
        rw [Dom.findFirst_addClasses (nidIs_styleBlind ic.nid), hfindicDMV,
          Option.map_some']
      have hrect2 : Dom.countP (fun c => c.tag == "rect")
          (Dom.addClassesNid ic.nid host.classes ic) = 0 := by
        rw [Dom.countP_addClasses rectPred_styleBlind]
        exact hnorect
      have hscrub : scrubRect ic.nid
          (Dom.addClassesNid ic.nid host.classes
            (Dom.insertAfterNid pa.nid ic (Dom.removeNid ic.nid d)))
          = Dom.addClassesNid ic.nid host.classes
              (Dom.insertAfterNid pa.nid ic (Dom.removeNid ic.nid d)) :=
        scrubRect_id_of_no_rect hfindic2 hrect2
      refine ⟨Dom.addClassesNid ic.nid host.classes ic, ?_, ?_, ?_,
        Dom.addClassesNid ic.nid host.classes
          (Dom.insertAfterNid pa.nid ic sc), ?_, ?_⟩
      · rw [hred, hscrub, Dom.sibAfter_addClasses, hsibDMV, Option.map_some']
      · unfold isIcon
        rw [Dom.attrId_addClasses]
        exact hIcPred
      · rw [Dom.nid_addClasses]
      · rw [hred, hscrub, Dom.findFirst_addClasses (nidIs_styleBlind sc.nid),
          hfindscDMV, Option.map_some']
      · rw [Dom.nids_addClasses]
        exact hmemsc1

/-- The orphaned icon, container and anchor nodes of `demoOrphan`. -/
def orphanIc : Dom :=
  Dom.node 3 "a" ICON_ID "" ["local-unifi-drive-wrapper"]
    [Dom.node 4 "svg" "" "" [] []]

def orphanSc : Dom :=
  Dom.node 1 "div" "" "" ["unifi-portal-1vz64y0", "evzy7n80"]
    [Dom.node 2 "a" "" "applink-protect" [] []]

def orphanPa : Dom := Dom.node 2 "a" "" "applink-protect" [] []

theorem C6_repair_convergence_witness :
    ∃ w, Dom.sibAfter orphanPa.nid (repairExisting demoOrphan) = some w ∧
      isIcon w = true ∧ w.nid = orphanIc.nid ∧
      ∃ sc2, (repairExisting demoOrphan).findFirst
          (fun x => x.nid == orphanSc.nid) = some sc2 ∧
        orphanIc.nid ∈ sc2.nids :=
  @C6_repair_convergence demoOrphan orphanIc orphanSc orphanPa
    ⟨by decide, rfl, by decide⟩ rfl rfl rfl (by decide) (by decide)
    (by decide) (by decide)
